import Mathlib

/-!
Verification of the Vue 3 script-setup declaration-order ESLint rule.

This file embeds, in Lean, the core of the rule as it appears in the
repository sources:
* `src/lib/constants.js` — the default orderings and name lists;
* the AST-classification utilities (`getSection`, `getCallExpressionSection`,
  `extractLifecycleHookName`, `unwrapTypeCast`, `validateSectionOrder`,
  `groupName`), as imported by `src/lib/utils/orderUtils.js` (the variant whose
  one-argument `validateSectionOrder` matches the call in
  `src/lib/rules/declaration-order.js`);
* `src/lib/utils/orderUtils.js` — `createNodeWithSection`, `sortNodes`,
  `groupNodes`, `generateSortedText`, `normalizeNewlines`;
* `src/lib/rules/declaration-order.js` — option handling and the
  `Program:exit` handler that produces at most one fix.

JavaScript strings are embedded as `List Char`; statement AST nodes as an
inductive covering exactly the shape distinctions the code inspects.
`Array.prototype.sort` with a comparator is embedded as a stable insertion
sort on the comparator's sign, which agrees with every conformant JS engine
whenever the comparator is consistent.
-/

namespace VueSetup

/-- Characters matched by the JavaScript regex class `\s` (restricted to the
ASCII range, which covers every character appearing in the statements this
development evaluates). -/
def isWsChar (c : Char) : Bool :=
  c = ' ' || c = '\t' || c = '\n' || c = '\r' || c = '\x0b' || c = '\x0c'

/-- Embed a Lean string literal as a JavaScript string (list of chars). -/
def strL (s : String) : List Char := s.data

/-- JavaScript `String.prototype.slice(a, b)` / ESLint `getText` over a range. -/
def sliceChars (source : List Char) (a b : Nat) : List Char :=
  (source.drop a).take (b - a)

/-- The part of `l` strictly after its last newline (used to model how the
greedy regex `\n\s*\n` backtracks to the last newline of a whitespace run). -/
def afterLastNl (l : List Char) : List Char :=
  (l.reverse.takeWhile (fun c => c ≠ '\n')).reverse

/-- At a position whose character is a newline, the JS regex `\n\s*\n`
matches iff the following maximal whitespace run contains another newline;
the greedy match consumes through the last newline of that run.  Returns the
remainder of the input after the match, or `none` if there is no match. -/
def matchTail (rest : List Char) : Option (List Char) :=
  if (rest.takeWhile isWsChar).elem '\n' then
    some (afterLastNl (rest.takeWhile isWsChar) ++ rest.dropWhile isWsChar)
  else none

/-- One left-to-right pass of `text.replace(/\n\s*\n/g, "\n")`
(from `normalizeNewlines` in `src/lib/utils/orderUtils.js`).  The fuel
argument bounds the scan; it is always instantiated with the input length,
which suffices because every step consumes at least one character. -/
def collapseAux : Nat → List Char → List Char
  | 0, _ => []
  | _ + 1, [] => []
  | fuel + 1, c :: rest =>
    if c = '\n' then
      match matchTail rest with
      | some rest2 => '\n' :: collapseAux fuel rest2
      | none => '\n' :: collapseAux fuel rest
    else c :: collapseAux fuel rest

/-- `text.replace(/\n\s*\n/g, "\n")`. -/
def collapseChars (l : List Char) : List Char := collapseAux l.length l

/-- JavaScript `String.prototype.trim()`. -/
def trimChars (l : List Char) : List Char :=
  ((l.dropWhile isWsChar).reverse.dropWhile isWsChar).reverse

/-- `normalizeNewlines` from `src/lib/utils/orderUtils.js`:
`text.replace(/\n\s*\n/g, "\n").trim()`. -/
def normalizeNewlines (l : List Char) : List Char := trimChars (collapseChars l)

/-- `true` when no newline of `l` is followed, across only whitespace, by
another newline: on such strings the replacement pass is the identity. -/
def isCollapsed : List Char → Bool
  | [] => true
  | c :: rest =>
    (if c = '\n' then !((rest.takeWhile isWsChar).elem '\n') else true)
      && isCollapsed rest

/-- A statement text as produced by a parser: nonempty, beginning and ending
with a non-whitespace character (token boundaries). -/
def goodText (t : List Char) : Bool :=
  (match t.head? with
   | some c => !(isWsChar c)
   | none => false)
  && (match t.getLast? with
      | some c => !(isWsChar c)
      | none => false)

/-! ## AST model

The statement shapes distinguished by the classifier in the repository's
AST utilities. -/

/-- Expression shapes inspected by `getSection` / `unwrapTypeCast` /
`extractLifecycleHookName`. -/
inductive JsExpr where
  | tsAs (e : JsExpr)
  | tsTypeAssertion (e : JsExpr)
  | functionExpr
  | arrowFunctionExpr
  | callIdent (name : String)
  | callOther
  | otherExpr
deriving DecidableEq

/-- `unwrapTypeCast`: peel `TSAsExpression` / `TSTypeAssertion` wrappers. -/
def unwrapTypeCast : JsExpr → JsExpr
  | .tsAs e => unwrapTypeCast e
  | .tsTypeAssertion e => unwrapTypeCast e
  | e => e

/-- One entry of a `VariableDeclaration`'s `declarations` array. -/
structure Declarator where
  init : Option JsExpr
deriving DecidableEq

/-- Top-level statement shapes distinguished by `getSection`. -/
inductive Stmt where
  | importDecl
  | classDecl
  | typeAliasDecl
  | interfaceDecl
  | varDecl (declarations : List Declarator)
  | functionDecl
  | exprStmt (expression : JsExpr)
  | otherStmt
deriving DecidableEq

def isImportStmt : Stmt → Bool
  | .importDecl => true
  | _ => false

/-- `DEFAULT_SECTION_ORDER` from `src/lib/constants.js`. -/
def DEFAULT_SECTION_ORDER : List String :=
  ["type", "defineProps", "defineEmits", "defineOthers", "class",
   "plainVars", "reactiveVars", "composables", "computed", "watchers",
   "lifecycle", "unknowns", "functions"]

/-- `DECLARE_LIST` from `src/lib/constants.js`. -/
def DECLARE_LIST : List String :=
  ["ref", "reactive", "shallowRef", "shallowReactive", "shallowReadonly",
   "markRaw"]

/-- `LIFECYCLE_LIST` from `src/lib/constants.js`. -/
def LIFECYCLE_LIST : List String :=
  ["onBeforeMount", "onMounted", "onBeforeUpdate", "onUpdated",
   "onBeforeUnmount", "onUnmounted", "onErrorCaptured", "onRenderTracked",
   "onRenderTriggered", "onActivated", "onDeactivated", "onServerPrefetch"]

/-- `DEFAULT_LIFECYCLE_ORDER` from `src/lib/constants.js`, as an association
list (its keys are distinct, so object lookup is association-list lookup). -/
def DEFAULT_LIFECYCLE_ORDER : List (String × Nat) :=
  [("onBeforeMount", 0), ("onMounted", 1), ("onBeforeUpdate", 2),
   ("onUpdated", 3), ("onBeforeUnmount", 4), ("onUnmounted", 5),
   ("onErrorCaptured", 6), ("onRenderTracked", 7), ("onRenderTriggered", 8),
   ("onActivated", 9), ("onDeactivated", 10), ("onServerPrefetch", 11)]

/-- JavaScript `String.prototype.startsWith`, at the character level. -/
def strStartsWith (s pre : String) : Bool := pre.data.isPrefixOf s.data

/-- `getCallExpressionSection` from the AST utilities. -/
def getCallExpressionSection (calleeName : String) : Option String :=
  if calleeName = "defineProps" then some ("defineProps")
  else if calleeName = "defineEmits" then some ("defineEmits")
  else if calleeName = "defineExpose" then some ("defineExpose")
  else if calleeName = "defineSlots" then some ("defineSlots")
  else if calleeName = "defineModel" then some ("defineModel")
  else if calleeName = "defineOptions" then some ("defineOptions")
  else if DECLARE_LIST.contains calleeName then some ("reactiveVars")
  else if strStartsWith calleeName ("use") then some ("composables")
  else if calleeName = "computed" then some ("computed")
  else if calleeName = "watch" then some ("watchers")
  else if LIFECYCLE_LIST.contains calleeName then some ("lifecycle")
  else none

/-- `getVariableDeclarationSection` from the AST utilities: classification
of a `VariableDeclaration` by its first declarator. -/
def getVariableDeclarationSection (decls : List Declarator) : String :=
  match decls.head? with
  | some d =>
    match d.init with
    | some init =>
      match unwrapTypeCast init with
      | .functionExpr => "functions"
      | .arrowFunctionExpr => "functions"
      | .callIdent n => (getCallExpressionSection n).getD ("plainVars")
      | _ => "plainVars"
    | none => "plainVars"
  | none => "plainVars"

/-- `getSection` from the AST utilities (`null` for imports becomes `none`). -/
def getSection : Stmt → Option String
  | .importDecl => none
  | .classDecl => some ("class")
  | .typeAliasDecl => some ("type")
  | .interfaceDecl => some ("type")
  | .varDecl ds => some (getVariableDeclarationSection ds)
  | .functionDecl => some ("functions")
  | .exprStmt e =>
    match e with
    | .callIdent n => some ((getCallExpressionSection n).getD ("unknowns"))
    | _ => some ("unknowns")
  | .otherStmt => some ("unknowns")

/-- `extractLifecycleHookName` from the AST utilities. -/
def extractLifecycleHookName : Stmt → Option String
  | .varDecl ds =>
    match ds.head? with
    | some d =>
      match d.init with
      | some init =>
        match unwrapTypeCast init with
        | .callIdent n => some n
        | _ => none
      | none => none
    | none => none
  | .exprStmt e =>
    match e with
    | .callIdent n => some n
    | _ => none
  | _ => none

/-- The `defineGroup` list inside `groupName`. -/
def defineGroup : List String := ["defineProps", "defineEmits"]

/-- `groupName` from the AST utilities: collapse the `define*` sections it
lists into the single rendering group `"define"`. -/
def groupName (sec : String) : String :=
  if defineGroup.contains sec then "define" else sec

/-- `groupName` lifted to a possibly-`null` section. -/
def groupNameOpt : Option String → Option String
  | some s => some (groupName s)
  | none => none

/-! ## Order resolver (`src/lib/utils/orderUtils.js`) -/

/-- A parsed statement handed over by the host engine: a byte range into the
source buffer plus its shape. -/
structure Node where
  range0 : Nat
  range1 : Nat
  stmt : Stmt
deriving DecidableEq

/-- The record built by `createNodeWithSection`
(`{ node, index, section, sortIndex, text, lifecycleSortIndex }`).
The `section` field is named `sectionName` because `section` is reserved in
Lean. -/
structure Item where
  node : Node
  index : Nat
  sectionName : Option String
  sortIndex : Nat
  text : List Char
  lifecycleSortIndex : Option Nat
deriving DecidableEq

/-- `getLifecycleSortIndex` from `src/lib/utils/orderUtils.js`. -/
def getLifecycleSortIndex (stmt : Stmt) (lifecycleOrder : List (String × Nat)) :
    Nat :=
  match extractLifecycleHookName stmt with
  | some h =>
    match lifecycleOrder.lookup h with
    | some v => v
    | none => lifecycleOrder.length
  | none => lifecycleOrder.length

/-- `createNodeWithSection` from `src/lib/utils/orderUtils.js`.  In Lean,
`List.indexOf` already returns the list length when the element is absent,
matching `idx !== -1 ? idx : sectionOrder.length`. -/
def createNodeWithSection (sectionOrder : List String)
    (lifecycleOrder : List (String × Nat)) (source : List Char)
    (index : Nat) (node : Node) : Item :=
  let sec := getSection node.stmt
  let text := sliceChars source node.range0 node.range1
  let sortIndex :=
    match sec with
    | some s => sectionOrder.indexOf s
    | none => sectionOrder.length
  let lsi :=
    if sec = some ("lifecycle") then
      some (getLifecycleSortIndex node.stmt lifecycleOrder)
    else none
  ⟨node, index, sec, sortIndex, text, lsi⟩

/-- The comparator passed to `Array.prototype.sort` in `sortNodes`.  Only the
sign matters to the sort.  A non-number `lifecycleSortIndex` is treated as
`Infinity`, exactly as in the source; `none` models that case. -/
def nodeCmp (a b : Item) : Int :=
  if a.sortIndex ≠ b.sortIndex then (a.sortIndex : Int) - (b.sortIndex : Int)
  else if a.sectionName = some ("lifecycle") ∧ b.sectionName = some ("lifecycle") then
    if a.lifecycleSortIndex = b.lifecycleSortIndex then
      (a.index : Int) - (b.index : Int)
    else
      match a.lifecycleSortIndex, b.lifecycleSortIndex with
      | some m, some n => (m : Int) - (n : Int)
      | some _, none => -1
      | none, some _ => 1
      | none, none => (a.index : Int) - (b.index : Int)
  else (a.index : Int) - (b.index : Int)

/-- `a` may be placed no later than `b` by the comparator. -/
def nodeLe (a b : Item) : Bool := nodeCmp a b ≤ 0

/-- Stable insertion of `x` into a sorted list. -/
def insertSorted (le : Item → Item → Bool) (x : Item) : List Item → List Item
  | [] => [x]
  | y :: ys => if le x y then x :: y :: ys else y :: insertSorted le x ys

/-- Stable insertion sort; the embedding of `Array.prototype.sort` for a
sign-valued comparator. -/
def insertionSort (le : Item → Item → Bool) : List Item → List Item
  | [] => []
  | x :: xs => insertSorted le x (insertionSort le xs)

/-- `sortNodes` from `src/lib/utils/orderUtils.js`: sort a copy of the input
with the comparator above. -/
def sortNodes (nodesWithSection : List Item) : List Item :=
  insertionSort nodeLe nodesWithSection

/-- One output block of `groupNodes`
(`{ group, items, range: [start, end] }`). -/
structure Group where
  group : Option String
  items : List Item
  rangeStart : Nat
  rangeEnd : Nat
deriving DecidableEq

/-- The loop body of `groupNodes`: `cur`/`curName`/`rs`/`re` are the
`currentGroup`, `currentGroupName`, `groupRangeStart`, `groupRangeEnd`
variables. -/
def groupNodesGo (curName : Option String) (cur : List Item) (rs re : Nat) :
    List Item → List Group
  | [] => [⟨curName, cur, rs, re⟩]
  | item :: rest =>
    if groupNameOpt item.sectionName = curName then
      groupNodesGo curName (cur ++ [item]) rs item.node.range1 rest
    else
      ⟨curName, cur, rs, re⟩ ::
        groupNodesGo (groupNameOpt item.sectionName) [item]
          item.node.range0 item.node.range1 rest

/-- `groupNodes` from `src/lib/utils/orderUtils.js`. -/
def groupNodes : List Item → List Group
  | [] => []
  | x :: xs => groupNodesGo (groupNameOpt x.sectionName) [x] x.node.range0 x.node.range1 xs

/-- `getGroupText` inside `generateSortedText`: join the items' texts with a
single line break, then normalize. -/
def getGroupText (g : Group) : List Char :=
  normalizeNewlines (List.intercalate ['\n'] (g.items.map Item.text))

/-- `generateSortedText` from `src/lib/utils/orderUtils.js`: groups joined
with one blank line. -/
def generateSortedText (groups : List Group) : List Char :=
  List.intercalate ['\n', '\n'] (groups.map getGroupText)

/-! ## The rule (`src/lib/rules/declaration-order.js`) -/

/-- The single replacement fix the rule can report. -/
structure Edit where
  rangeStart : Nat
  rangeEnd : Nat
  replacement : List Char
deriving DecidableEq

/-- `node.body.filter((child) => child.type !== "ImportDeclaration")`. -/
def survivors (body : List Node) : List Node :=
  body.filter (fun n => !(isImportStmt n.stmt))

/-- `nonImportNodes.map((child, index) => createNodeWithSection(...))`. -/
def buildItems (sectionOrder : List String) (lifecycleOrder : List (String × Nat))
    (source : List Char) (nodes : List Node) : List Item :=
  nodes.enum.map (fun p => createNodeWithSection sectionOrder lifecycleOrder source p.1 p.2)

/-- The grouped pipeline state of one pass over an already-filtered node
list. -/
def pipelineGroups (sectionOrder : List String)
    (lifecycleOrder : List (String × Nat)) (source : List Char)
    (nodes : List Node) : List Group :=
  groupNodes (sortNodes (buildItems sectionOrder lifecycleOrder source nodes))

/-- The `Program:exit` handler of `src/lib/rules/declaration-order.js`:
classify, sort, group, render, then compare the regenerated text against the
raw source slice over the surviving statements' span and report at most one
range-replacement fix. -/
def programExit (sectionOrder : List String)
    (lifecycleOrder : List (String × Nat)) (source : List Char)
    (body : List Node) : Option Edit :=
  match survivors body with
  | [] => none
  | first :: rest =>
    let sortedText := generateSortedText
      (pipelineGroups sectionOrder lifecycleOrder source (first :: rest))
    let r0 := first.range0
    let r1 := ((first :: rest).getLastD first).range1
    if sliceChars source r0 r1 = sortedText then none
    else some ⟨r0, r1, sortedText⟩

/-! ## Option validation (`validateSectionOrder` and `create`) -/

/-- One element of a configured `sectionOrder` array: either a string or a
value of some other `typeof`. -/
inductive ConfigElem where
  | str (s : String)
  | nonString (typeName : String)
deriving DecidableEq

/-- A configured `sectionOrder` value: either an array or a value of some
other `typeof`. -/
inductive ConfigValue where
  | arr (elems : List ConfigElem)
  | notArray (typeName : String)
deriving DecidableEq

/-- The loop of `validateSectionOrder`, checking each element in order. -/
def validateElems : List ConfigElem → Except String Unit
  | [] => .ok ()
  | .nonString t :: _ =>
    .error ("Invalid \"sectionOrder\" option: Expected string values, but found "
      ++ t ++ ".")
  | .str s :: rest =>
    if DEFAULT_SECTION_ORDER.contains s then validateElems rest
    else
      .error ("Invalid \"sectionOrder\" option: \"" ++ s
        ++ "\" is not a recognized section. Valid sections: "
        ++ String.intercalate ", " DEFAULT_SECTION_ORDER)

/-- `validateSectionOrder` from the AST utilities: a thrown `Error` is an
`Except.error` carrying the exact message. -/
def validateSectionOrder : ConfigValue → Except String Unit
  | .notArray t =>
    .error ("Invalid \"sectionOrder\" option: Expected an array, but received "
      ++ t ++ ".")
  | .arr es => validateElems es

/-- `options.sectionOrder || DEFAULT_SECTION_ORDER` in `create`. -/
def effectiveSectionOrder (opt : Option ConfigValue) : ConfigValue :=
  opt.getD (ConfigValue.arr (DEFAULT_SECTION_ORDER.map ConfigElem.str))

/-- The strings of a validated `sectionOrder` array. -/
def configStrings : ConfigValue → List String
  | .arr es =>
    es.filterMap (fun e =>
      match e with
      | .str s => some s
      | .nonString _ => none)
  | .notArray _ => []

/-- `create` followed by the `Program:exit` visit: validation happens when
the rule instance is created, before any statement is classified, so an
invalid `sectionOrder` aborts the pass with the thrown message and no node is
ever processed. -/
def runRule (opt : Option ConfigValue) (source : List Char) (body : List Node) :
    Except String (Option Edit) :=
  let v := effectiveSectionOrder opt
  match validateSectionOrder v with
  | .error e => .error e
  | .ok _ =>
    .ok (programExit (configStrings v) DEFAULT_LIFECYCLE_ORDER source body)

/-! ## Statement of the specified sort order -/

/-- Strict "sorts earlier" on optional secondary keys, where a missing key
sorts last. -/
def skLtB : Option Nat → Option Nat → Bool
  | some m, some n => m < n
  | some _, none => true
  | none, _ => false

/-- The order the specification ascribes to the Order Resolver: primary key
ascending; on a tie where both items are lifecycle hooks, secondary key
ascending; on every other tie, original index ascending. -/
def claimRel (a b : Item) : Bool :=
  if a.sortIndex < b.sortIndex then true
  else if a.sortIndex = b.sortIndex then
    if a.sectionName = some ("lifecycle") && b.sectionName = some ("lifecycle") then
      skLtB a.lifecycleSortIndex b.lifecycleSortIndex
        || (a.lifecycleSortIndex = b.lifecycleSortIndex && a.index ≤ b.index)
    else decide (a.index ≤ b.index)
  else false

/-- The closed 13-tag enumeration of section tags from the specification's
data model. -/
inductive SectionTag where
  | sType
  | sDefineProps
  | sDefineEmits
  | sDefineOthers
  | sClass
  | sPlainVars
  | sReactiveVars
  | sComposables
  | sComputed
  | sWatchers
  | sLifecycle
  | sUnknowns
  | sFunctions
deriving DecidableEq

/-- The string the source uses for each section tag. -/
def tagStr : SectionTag → String
  | .sType => "type"
  | .sDefineProps => "defineProps"
  | .sDefineEmits => "defineEmits"
  | .sDefineOthers => "defineOthers"
  | .sClass => "class"
  | .sPlainVars => "plainVars"
  | .sReactiveVars => "reactiveVars"
  | .sComposables => "composables"
  | .sComputed => "computed"
  | .sWatchers => "watchers"
  | .sLifecycle => "lifecycle"
  | .sUnknowns => "unknowns"
  | .sFunctions => "functions"

/-! ## Re-parsing the regenerated text

The host parser is outside this repository (spec §6: the host analysis
engine supplies the parsed statement list with byte ranges). -/

/-- Positions of a block's statements inside the regenerated text: each
statement spans its normalized text, statements within a block are separated
by one line break. -/
def layoutGroup (pos : Nat) : List Item → List Node
  | [] => []
  | it :: rest =>
    ⟨pos, pos + (collapseChars it.text).length, it.node.stmt⟩ ::
      layoutGroup (pos + (collapseChars it.text).length + 1) rest

/-- The length a block's item list occupies in the regenerated text. -/
def groupRenderLen (g : List Item) : Nat :=
  (List.intercalate ['\n'] (g.map (fun it => collapseChars it.text))).length

/-- Positions of all statements inside the regenerated text: blocks are
separated by one blank line (two line breaks). -/
def layoutGroups (pos : Nat) : List (List Item) → List Node
  | [] => []
  | g :: gs => layoutGroup pos g ++ layoutGroups (pos + groupRenderLen g + 2) gs

/-- Modelled from the spec: the host parser (spec §6, outside this
repository) returns the top-level statements of a source text in textual
order, each with its shape and its byte range.  Applied to the text
regenerated from `groups`, these are the grouped statements in rendered
order; each statement's range spans its slice of the regenerated text, whose
length is that of its normalized (blank-line-collapsed) text, as established
by the rendering lemmas below. -/
def reparse (groups : List Group) : List Node :=
  layoutGroups 0 (groups.map Group.items)

/-- The tagged item the second pass builds for one statement: same shape,
index `i`, byte range starting at `p` in the regenerated text, text equal to
the normalized first-pass text.  `layoutGroups` together with
`createNodeWithSection` produce exactly these items (proved below). -/
def rebuilt (so : List String) (lo : List (String × Nat)) (i p : Nat)
    (a : Item) : Item :=
  ⟨⟨p, p + (collapseChars a.text).length, a.node.stmt⟩, i,
    getSection a.node.stmt,
    (match getSection a.node.stmt with
     | some s => so.indexOf s
     | none => so.length),
    collapseChars a.text,
    (if getSection a.node.stmt = some ("lifecycle")
     then some (getLifecycleSortIndex a.node.stmt lo) else none)⟩

/-- Second-pass items of one block, starting at index `i` and offset `p`. -/
def rebuildList (so : List String) (lo : List (String × Nat)) :
    Nat → Nat → List Item → List Item
  | _, _, [] => []
  | i, p, a :: rest =>
    rebuilt so lo i p a
      :: rebuildList so lo (i + 1) (p + (collapseChars a.text).length + 1) rest

/-- Second-pass items of a block sequence. -/
def rebuildGroups (so : List String) (lo : List (String × Nat)) :
    Nat → Nat → List (List Item) → List Item
  | _, _, [] => []
  | i, p, g :: gs =>
    rebuildList so lo i p g
      ++ rebuildGroups so lo (i + g.length) (p + groupRenderLen g + 2) gs

/-- A second-pass item carries the same classification data as its
first-pass original and the normalized text. -/
def relFull (a b : Item) : Prop :=
  b.node.stmt = a.node.stmt ∧ b.sectionName = a.sectionName
    ∧ b.sortIndex = a.sortIndex
    ∧ b.lifecycleSortIndex = a.lifecycleSortIndex
    ∧ b.text = collapseChars a.text

/-- The part of `relFull` that grouping and rendering depend on. -/
def relSec (a b : Item) : Prop :=
  b.sectionName = a.sectionName ∧ b.text = collapseChars a.text

/-- An item is well-formed for `(so, lo)` when its cached classification
fields agree with `createNodeWithSection`'s formulas on its statement. -/
def wfItem (so : List String) (lo : List (String × Nat)) (it : Item) : Prop :=
  it.sectionName = getSection it.node.stmt
    ∧ it.sortIndex = (match getSection it.node.stmt with
        | some s => so.indexOf s
        | none => so.length)
    ∧ it.lifecycleSortIndex = (if getSection it.node.stmt = some ("lifecycle")
        then some (getLifecycleSortIndex it.node.stmt lo) else none)

/-! ## Heap model for `sortNodes`'s copy-then-sort -/

/-- A heap of JavaScript arrays of tagged items, addressed by reference. -/
abbrev Store : Type := List (List Item)

/-- Dereference an array. -/
def storeGet (s : Store) (r : Nat) : List Item := s.getD r []

/-- Number of allocated arrays. -/
def storeSize (s : Store) : Nat := s.length

/-- `nodesWithSection.slice()`: allocate a fresh array holding the same
elements and return its reference. -/
def jsArraySlice (s : Store) (r : Nat) : Store × Nat :=
  (s ++ [storeGet s r], s.length)

/-- `.sort(comparator)`: sort an array in place. -/
def jsSortInPlace (s : Store) (r : Nat) : Store :=
  s.set r (insertionSort nodeLe (storeGet s r))

/-- `sortNodes` as a heap operation: `nodesWithSection.slice().sort(...)`
allocates the copy and sorts only the copy. -/
def sortNodesCall (s : Store) (r : Nat) : Store × Nat :=
  let p := jsArraySlice s r
  (jsSortInPlace p.1 p.2, p.2)

/-! ## Concrete programs used as test inputs -/

/-- Source for the sort-order analysis: two lifecycle hooks surrounding an
unclassifiable call, with a primary ordering that contains none of their
tags. -/
def c1Source : List Char := strL "onUpdated(f);\nfoo();\nonMounted(g);"

def c1Body : List Node :=
  [⟨0, 13, .exprStmt (.callIdent "onUpdated")⟩,
   ⟨14, 20, .exprStmt (.callIdent "foo")⟩,
   ⟨21, 34, .exprStmt (.callIdent "onMounted")⟩]

def c1Items : List Item :=
  buildItems ["type"] DEFAULT_LIFECYCLE_ORDER c1Source c1Body

/-- A well-behaved three-item input: distinct primary keys. -/
def c1GoodItems : List Item :=
  buildItems DEFAULT_SECTION_ORDER DEFAULT_LIFECYCLE_ORDER c1Source c1Body

/-- Source whose two statements are already in canonical relative order but
separated by a blank line. -/
def c2Source : List Char := strL "foo();\n\nbar();"

def c2Body : List Node :=
  [⟨0, 6, .exprStmt (.callIdent "foo")⟩, ⟨8, 14, .exprStmt (.callIdent "bar")⟩]

/-- Source with two unclassifiable statements separated by a blank line. -/
def c5Source : List Char := strL "foo;\n\nbar;"

def c5Body : List Node := [⟨0, 4, .otherStmt⟩, ⟨6, 10, .otherStmt⟩]

def c5Groups : List Group :=
  pipelineGroups DEFAULT_SECTION_ORDER DEFAULT_LIFECYCLE_ORDER c5Source c5Body

/-- An invalid configured ordering. -/
def c6Bad : ConfigValue := ConfigValue.arr [ConfigElem.str ("notATag")]

/-- Source for the idempotence test: a composable call then a lifecycle
hook. -/
def c9Source : List Char := strL "useA();\nonMounted(f);"

def c9Body : List Node :=
  [⟨0, 7, .exprStmt (.callIdent "useA")⟩,
   ⟨8, 21, .exprStmt (.callIdent "onMounted")⟩]

def c9Groups : List Group :=
  pipelineGroups DEFAULT_SECTION_ORDER DEFAULT_LIFECYCLE_ORDER c9Source c9Body

/-- A one-array heap for the frame test. -/
def c10Store : Store := [c1GoodItems]

/-! ## Theorems -/

/-- Claim C7: with no `sectionOrder` option supplied, the rule falls back to
`DEFAULT_SECTION_ORDER`, which is exactly the canonical 13-tag sequence
type, defineProps, defineEmits, defineOthers, class, plainVars,
reactiveVars, composables, computed, watchers, lifecycle, unknowns,
functions, in that order. -/
theorem c7_default_ordering :
    DEFAULT_SECTION_ORDER
        = ["type", "defineProps", "defineEmits", "defineOthers", "class",
           "plainVars", "reactiveVars", "composables", "computed", "watchers",
           "lifecycle", "unknowns", "functions"]
      ∧ DEFAULT_SECTION_ORDER.length = 13
      ∧ effectiveSectionOrder none
          = ConfigValue.arr (DEFAULT_SECTION_ORDER.map ConfigElem.str)
      ∧ ∀ (source : List Char) (body : List Node),
          runRule none source body
            = .ok (programExit DEFAULT_SECTION_ORDER DEFAULT_LIFECYCLE_ORDER
                source body) :=
  ⟨rfl, rfl, rfl, fun _ _ => rfl⟩

/-- Claim C4 counterexample: `groupName` does not send `"defineOthers"` to
the `"define"` group; it maps it to itself, because `defineGroup` lists only
`defineProps` and `defineEmits`. -/
theorem c4_counterexample :
    groupName (tagStr SectionTag.sDefineOthers) = "defineOthers"
      ∧ groupName (tagStr SectionTag.sDefineOthers) ≠ "define" := by
  decide

/-- Claim C4, amended: `groupName` sends exactly the two tags `defineProps`
and `defineEmits` to the single group `"define"` and sends every other
section tag to the group equal to itself. -/
theorem c4_amended :
    ∀ t : SectionTag,
      groupName (tagStr t)
        = (if t = SectionTag.sDefineProps ∨ t = SectionTag.sDefineEmits
            then "define" else tagStr t) := by
  intro t
  cases t <;> decide

/-- Claim C3 counterexample: a variable binding with no initializer is
classified `"plainVars"`, not `"unknowns"`. -/
theorem c3_counterexample :
    getSection (Stmt.varDecl [⟨none⟩]) = some ("plainVars")
      ∧ getSection (Stmt.varDecl [⟨none⟩]) ≠ some ("unknowns") := by
  decide

/-- Claim C3, amended: for every variable binding whose first declarator is
missing or has no initializer, the classifier falls back to the
`"plainVars"` tag (the classifier is a total function, so the pass never
aborts on such a shape). -/
theorem c3_amended :
    ∀ decls : List Declarator,
      decls.head?.bind Declarator.init = none →
      getSection (Stmt.varDecl decls) = some ("plainVars") := by
  intro decls h
  cases decls with
  | nil => rfl
  | cons d rest =>
    cases hd : d.init with
    | none => simp [getSection, getVariableDeclarationSection, hd]
    | some e =>
      rw [List.head?_cons] at h
      simp [hd] at h

/-- Witness for the amended claim C3 at the concrete one-declarator
binding. -/
theorem c3_witness :
    ([(⟨none⟩ : Declarator)].head?.bind Declarator.init = none)
      ∧ getSection (Stmt.varDecl [⟨none⟩]) = some ("plainVars") :=
  ⟨rfl, c3_amended [⟨none⟩] rfl⟩

/-- Claim C5 counterexample: on a program of two unclassifiable statements
separated by a blank line, the pipeline records the block's byte range
0..10, but renders the block from the items' texts joined by a single line
break — not the verbatim source slice, whose internal blank line is lost. -/
theorem c5_counterexample :
    c5Groups.map (fun g => (g.group, g.rangeStart, g.rangeEnd))
        = [(some ("unknowns"), 0, 10)]
      ∧ sliceChars c5Source 0 4 = strL "foo;"
      ∧ sliceChars c5Source 6 10 = strL "bar;"
      ∧ generateSortedText c5Groups ≠ sliceChars c5Source 0 10
      ∧ generateSortedText c5Groups = strL "foo;\nbar;" := by
  decide

/-- Claim C5, amended: `generateSortedText` renders an `"unknowns"` block
exactly like every other block — the items' texts joined with a single line
break, blank-line runs collapsed and ends trimmed; neither the block's group
name nor its recorded byte range influences the rendering, and the original
source is never consulted. -/
theorem c5_amended :
    (∀ (gs : List Group) (f : Option String → Option String)
        (r e : Group → Nat),
        generateSortedText
            (gs.map (fun g => ⟨f g.group, g.items, r g, e g⟩))
          = generateSortedText gs)
      ∧ ∀ g : Group,
          getGroupText g
            = normalizeNewlines (List.intercalate ['\n'] (g.items.map Item.text)) := by
  constructor
  · intro gs f r e
    unfold generateSortedText
    rw [List.map_map]
    rfl
  · intro g
    rfl

/-- Dereferencing the freshly appended array yields the copied contents. -/
theorem storeGet_append_self (s : Store) (x : List Item) :
    storeGet (s ++ [x]) s.length = x := by
  unfold storeGet
  rw [List.getD_eq_getElem?_getD, List.getElem?_append_right (Nat.le_refl _)]
  simp

/-- Writing one reference leaves every other reference unchanged. -/
theorem storeGet_set_ne (s : Store) (i j : Nat) (y : List Item) (h : i ≠ j) :
    storeGet (s.set i y) j = storeGet s j := by
  unfold storeGet
  rw [List.getD_eq_getElem?_getD, List.getD_eq_getElem?_getD,
    List.getElem?_set_ne h]

/-- References below the old size dereference the same array after an
allocation. -/
theorem storeGet_append_left (s : Store) (x : List Item) (r : Nat)
    (h : r < s.length) : storeGet (s ++ [x]) r = storeGet s r := by
  unfold storeGet
  rw [List.getD_eq_getElem?_getD, List.getD_eq_getElem?_getD,
    List.getElem?_append_left h]

/-- Reading back an in-bounds write. -/
theorem storeGet_set_self (s : Store) (i : Nat) (y : List Item)
    (h : i < s.length) : storeGet (s.set i y) i = y := by
  unfold storeGet
  rw [List.getD_eq_getElem?_getD, List.getElem?_set_self h]
  rfl

/-- Claim C10: `sortNodes` evaluates `nodesWithSection.slice().sort(...)`:
the heap after the call holds the argument array unchanged at its old
reference, and the returned reference is the freshly allocated copy, sorted
with the comparator. -/
theorem c10_frame :
    ∀ (s : Store) (r : Nat), r < storeSize s →
      storeGet (sortNodesCall s r).1 r = storeGet s r
        ∧ (sortNodesCall s r).2 = storeSize s
        ∧ (sortNodesCall s r).2 ≠ r
        ∧ storeSize (sortNodesCall s r).1 = storeSize s + 1
        ∧ storeGet (sortNodesCall s r).1 (sortNodesCall s r).2
            = sortNodes (storeGet s r) := by
  intro s r h
  have hlen : r < s.length := h
  refine ⟨?_, rfl, fun hc => Nat.ne_of_lt hlen hc.symm, ?_, ?_⟩
  · show storeGet ((s ++ [storeGet s r]).set s.length
        (insertionSort nodeLe (storeGet (s ++ [storeGet s r]) s.length))) r
      = storeGet s r
    rw [storeGet_set_ne _ _ _ _ (Nat.ne_of_gt hlen),
      storeGet_append_left _ _ _ hlen]
  · show ((s ++ [storeGet s r]).set s.length _).length = s.length + 1
    simp
  · show storeGet ((s ++ [storeGet s r]).set s.length
        (insertionSort nodeLe (storeGet (s ++ [storeGet s r]) s.length)))
        s.length
      = sortNodes (storeGet s r)
    rw [storeGet_append_self, storeGet_set_self _ _ _ (by simp)]
    rfl

/-- Witness for claim C10 at a one-array heap. -/
theorem c10_witness :
    storeGet (sortNodesCall c10Store 0).1 0 = storeGet c10Store 0
      ∧ (sortNodesCall c10Store 0).2 ≠ 0
      ∧ storeGet (sortNodesCall c10Store 0).1 (sortNodesCall c10Store 0).2
          = sortNodes (storeGet c10Store 0) :=
  ⟨(c10_frame c10Store 0 (by decide)).1,
   (c10_frame c10Store 0 (by decide)).2.2.1,
   (c10_frame c10Store 0 (by decide)).2.2.2.2⟩

/-- Claim C6: `validateSectionOrder` fails exactly when the configured value
is not an array, contains a non-string element, or contains a string outside
the canonical 13-tag enumeration; for an unrecognized tag the message names
the offending entry and lists the full valid set; and a validation failure
aborts the whole pass before any statement is processed, whatever the
program. -/
theorem c6_validation :
    (∀ v : ConfigValue,
        (∃ m, validateSectionOrder v = .error m)
          ↔ (match v with
             | .notArray _ => True
             | .arr es =>
               ∃ e ∈ es,
                 match e with
                 | .nonString _ => True
                 | .str s => s ∉ DEFAULT_SECTION_ORDER))
      ∧ (∀ s : String, s ∉ DEFAULT_SECTION_ORDER →
          validateSectionOrder (.arr [.str s])
            = .error ("Invalid \"sectionOrder\" option: \"" ++ s
                ++ "\" is not a recognized section. Valid sections: "
                ++ String.intercalate ", " DEFAULT_SECTION_ORDER))
      ∧ String.intercalate ", " DEFAULT_SECTION_ORDER
          = "type, defineProps, defineEmits, defineOthers, class, plainVars, reactiveVars, composables, computed, watchers, lifecycle, unknowns, functions"
      ∧ DEFAULT_SECTION_ORDER.length = 13
      ∧ (∀ (v : ConfigValue) (m : String) (source : List Char)
            (body : List Node),
          validateSectionOrder v = .error m →
          runRule (some v) source body = .error m) := by
  refine ⟨?_, ?_, rfl, rfl, ?_⟩
  · intro v
    cases v with
    | notArray t => simp [validateSectionOrder]
    | arr es =>
      show (∃ m, validateElems es = .error m) ↔ _
      induction es with
      | nil => simp [validateElems]
      | cons e rest ih =>
        cases e with
        | nonString t => simp [validateElems]
        | str s =>
          by_cases hs : DEFAULT_SECTION_ORDER.contains s
          · have hmem : s ∈ DEFAULT_SECTION_ORDER := by
              simpa using hs
            simp [validateElems, hs, ih, hmem]
          · have hmem : s ∉ DEFAULT_SECTION_ORDER := by
              simpa using hs
            simp [validateElems, hs, hmem]
  · intro s hs
    have hc : DEFAULT_SECTION_ORDER.contains s = false := by
      simpa using hs
    simp only [validateSectionOrder, validateElems, hc, Bool.false_eq_true,
      if_false]
  · intro v m source body hv
    unfold runRule effectiveSectionOrder
    simp [hv]

/-- Witness for claim C6 at the configured ordering `["notATag"]`. -/
theorem c6_witness :
    validateSectionOrder c6Bad
        = .error ("Invalid \"sectionOrder\" option: \"notATag\" is not a recognized section. Valid sections: "
            ++ String.intercalate ", " DEFAULT_SECTION_ORDER)
      ∧ runRule (some c6Bad) c2Source c2Body
          = .error ("Invalid \"sectionOrder\" option: \"notATag\" is not a recognized section. Valid sections: "
              ++ String.intercalate ", " DEFAULT_SECTION_ORDER) := by
  have h1 := c6_validation.2.1 ("notATag") (by decide)
  have h2 := c6_validation.2.2.2.2 c6Bad _ c2Source c2Body h1
  exact ⟨h1, h2⟩

/-- Claim C2 counterexample: on two already-ordered unclassifiable
statements separated by a blank line, the rule produces an edit even though
the normalized original slice and the normalized regenerated text are equal:
the rewrite decision compares raw, non-normalized text. -/
theorem c2_counterexample :
    programExit DEFAULT_SECTION_ORDER DEFAULT_LIFECYCLE_ORDER c2Source c2Body
        = some ⟨0, 14, strL "foo();\nbar();"⟩
      ∧ normalizeNewlines (sliceChars c2Source 0 14)
          = normalizeNewlines (strL "foo();\nbar();") := by
  decide

/-- Claim C2, amended: for every non-empty surviving statement list the
rule slices the source over the span from the first to the last surviving
statement, produces no edit iff that raw slice equals the regenerated text
(no normalization is applied in the comparison), and otherwise produces
exactly one edit replacing the full span with the regenerated text. -/
theorem c2_amended :
    ∀ (so : List String) (lo : List (String × Nat)) (source : List Char)
      (body : List Node),
      survivors body ≠ [] →
      (programExit so lo source body = none
          ↔ sliceChars source ((survivors body).headD ⟨0, 0, .otherStmt⟩).range0
                ((survivors body).getLastD ⟨0, 0, .otherStmt⟩).range1
              = generateSortedText (pipelineGroups so lo source (survivors body)))
        ∧ ∀ e : Edit,
            programExit so lo source body = some e →
              e = ⟨((survivors body).headD ⟨0, 0, .otherStmt⟩).range0,
                   ((survivors body).getLastD ⟨0, 0, .otherStmt⟩).range1,
                   generateSortedText (pipelineGroups so lo source (survivors body))⟩ := by
  intro so lo source body h
  cases hs : survivors body with
  | nil => exact absurd hs h
  | cons first rest =>
    unfold programExit
    rw [hs]
    simp only [List.headD_cons, List.getLastD_cons]
    constructor
    · split
      · next hc => simpa using hc
      · next hc => simpa using hc
    · intro e he
      revert he
      split
      · intro he
        cases he
      · intro he
        cases he
        rfl

/-- Witness for the amended claim C2 at a concrete two-statement program. -/
theorem c2_witness :
    survivors c2Body ≠ []
      ∧ (programExit DEFAULT_SECTION_ORDER DEFAULT_LIFECYCLE_ORDER c2Source c2Body
            = none
          ↔ sliceChars c2Source
                ((survivors c2Body).headD ⟨0, 0, .otherStmt⟩).range0
                ((survivors c2Body).getLastD ⟨0, 0, .otherStmt⟩).range1
              = generateSortedText (pipelineGroups DEFAULT_SECTION_ORDER
                  DEFAULT_LIFECYCLE_ORDER c2Source (survivors c2Body))) :=
  ⟨by decide,
   (c2_amended DEFAULT_SECTION_ORDER DEFAULT_LIFECYCLE_ORDER c2Source c2Body
      (by decide)).1⟩

/-- A list can never be pairwise-ordered by `R` when it contains three
elements forming an `R`-cycle (each forbidden to precede the next). -/
theorem no_pairwise_of_cycle (R : Item → Item → Prop) (A B C : Item)
    (hAC : ¬ R A C) (hBA : ¬ R B A) (hCB : ¬ R C B)
    (hABne : A ≠ B) (hACne : A ≠ C) (hBCne : B ≠ C) :
    ∀ l : List Item, A ∈ l → B ∈ l → C ∈ l → ¬ l.Pairwise R := by
  intro l
  induction l with
  | nil => intro hA; cases hA
  | cons x rest ih =>
    intro hA hB hC hpw
    rcases List.pairwise_cons.mp hpw with ⟨hx, hrest⟩
    by_cases hxA : x = A
    · have hCr : C ∈ rest := by
        rcases List.mem_cons.mp hC with h | h
        · exact absurd (h.trans hxA).symm hACne
        · exact h
      exact hAC (hxA ▸ hx C hCr)
    · by_cases hxB : x = B
      · have hAr : A ∈ rest := by
          rcases List.mem_cons.mp hA with h | h
          · exact absurd (h.trans hxB).symm (fun hh => hABne hh.symm)
          · exact h
        exact hBA (hxB ▸ hx A hAr)
      · by_cases hxC : x = C
        · have hBr : B ∈ rest := by
            rcases List.mem_cons.mp hB with h | h
            · exact absurd (h.trans hxC).symm (fun hh => hBCne hh.symm)
            · exact h
          exact hCB (hxC ▸ hx B hBr)
        · have hAr : A ∈ rest := by
            rcases List.mem_cons.mp hA with h | h
            · exact absurd h.symm hxA
            · exact h
          have hBr : B ∈ rest := by
            rcases List.mem_cons.mp hB with h | h
            · exact absurd h.symm hxB
            · exact h
          have hCr : C ∈ rest := by
            rcases List.mem_cons.mp hC with h | h
            · exact absurd h.symm hxC
            · exact h
          exact ih hAr hBr hCr hrest

/-- No reordering of the three tagged items of `c1Items` satisfies the
specified sort order: the required precedences are cyclic. -/
theorem c1_perm_unsortable :
    ∀ l : List Item, l.Perm c1Items →
      ¬ (l.Pairwise fun a b => claimRel a b = true) := by
  intro l hp
  have hA : c1Items.get? 0
      = some ⟨⟨0, 13, .exprStmt (.callIdent "onUpdated")⟩, 0,
          some ("lifecycle"), 1, strL "onUpdated(f);", some 3⟩ := by decide
  refine no_pairwise_of_cycle _
    ⟨⟨0, 13, .exprStmt (.callIdent "onUpdated")⟩, 0,
      some ("lifecycle"), 1, strL "onUpdated(f);", some 3⟩
    ⟨⟨14, 20, .exprStmt (.callIdent "foo")⟩, 1,
      some ("unknowns"), 1, strL "foo();", none⟩
    ⟨⟨21, 34, .exprStmt (.callIdent "onMounted")⟩, 2,
      some ("lifecycle"), 1, strL "onMounted(g);", some 1⟩
    (by decide) (by decide) (by decide) (by decide) (by decide) (by decide)
    l ?_ ?_ ?_
  · exact hp.mem_iff.mpr (by decide)
  · exact hp.mem_iff.mpr (by decide)
  · exact hp.mem_iff.mpr (by decide)

/-- Claim C1 counterexample: with the configured ordering `["type"]`, two
lifecycle hooks and an unclassifiable call all share the primary key; the
order the claim describes (secondary key between the lifecycle items,
original index against the third) is cyclic there, and the output of
`sortNodes` does not satisfy it. -/
theorem c1_counterexample :
    ¬ ((sortNodes c1Items).Pairwise fun a b => claimRel a b = true) := by
  decide

/-! ## Sorting theory -/

/-- Stable insertion produces a permutation of consing. -/
theorem insertSorted_perm (le : Item → Item → Bool) (x : Item) :
    ∀ l : List Item, (insertSorted le x l).Perm (x :: l) := by
  intro l
  induction l with
  | nil => exact List.Perm.refl _
  | cons y ys ih =>
    unfold insertSorted
    split
    · exact List.Perm.refl _
    · exact (List.Perm.cons y ih).trans (List.Perm.swap x y ys)

/-- The embedded `Array.prototype.sort` returns a permutation of its
input. -/
theorem insertionSort_perm (le : Item → Item → Bool) :
    ∀ l : List Item, (insertionSort le l).Perm l := by
  intro l
  induction l with
  | nil => exact List.Perm.refl _
  | cons x xs ih =>
    exact (insertSorted_perm le x (insertionSort le xs)).trans (ih.cons x)

/-- The comparator is total: of any two items, one may precede the other. -/
theorem nodeLe_total : ∀ a b : Item, nodeLe a b = true ∨ nodeLe b a = true := by
  intro a b
  unfold nodeLe nodeCmp
  split_ifs <;> simp only [decide_eq_true_eq] <;>
    first
      | omega
      | tauto
      | (rcases ha : a.lifecycleSortIndex with _ | m <;>
          rcases hb : b.lifecycleSortIndex with _ | n <;>
            simp_all <;> omega)

/-- Inserting into a comparator-chained list keeps it chained. -/
theorem chain'_insertSorted (le : Item → Item → Bool)
    (htot : ∀ a b : Item, le a b = true ∨ le b a = true) (x : Item) :
    ∀ l : List Item, l.Chain' (fun a b => le a b = true) →
      (insertSorted le x l).Chain' (fun a b => le a b = true) := by
  intro l
  induction l with
  | nil => intro _; simp [insertSorted]
  | cons y ys ih =>
    intro hch
    rw [insertSorted]
    split
    · next hxy => exact List.Chain'.cons hxy hch
    · next hxy =>
      have hyx : le y x = true := (htot x y).resolve_left (by simpa using hxy)
      have hrec := ih hch.tail
      refine List.chain'_cons'.mpr ⟨?_, hrec⟩
      intro w hw
      cases ys with
      | nil =>
        simp [insertSorted] at hw
        subst hw
        exact hyx
      | cons z zs =>
        rw [insertSorted] at hw
        by_cases hxz : le x z = true
        · rw [if_pos hxz] at hw
          simp at hw
          subst hw
          exact hyx
        · rw [if_neg hxz] at hw
          simp at hw
          subst hw
          exact (List.chain'_cons.mp hch).1

/-- The embedded sort output is chained by the comparator. -/
theorem insertionSort_chain (le : Item → Item → Bool)
    (htot : ∀ a b : Item, le a b = true ∨ le b a = true) :
    ∀ l : List Item, (insertionSort le l).Chain' (fun a b => le a b = true) := by
  intro l
  induction l with
  | nil => simp [insertionSort]
  | cons x xs ih => exact chain'_insertSorted le htot x _ ih

/-- Sorting a list already chained by the comparator is the identity. -/
theorem insertionSort_eq_of_chain (le : Item → Item → Bool) :
    ∀ l : List Item, l.Chain' (fun a b => le a b = true) →
      insertionSort le l = l := by
  intro l
  induction l with
  | nil => intro _; rfl
  | cons x xs ih =>
    intro hch
    show insertSorted le x (insertionSort le xs) = x :: xs
    rw [ih hch.tail]
    cases xs with
    | nil => rfl
    | cons y ys =>
      have hxy : le x y = true := (List.chain'_cons.mp hch).1
      rw [insertSorted, if_pos hxy]

/-- A chained list is pairwise-ordered when the relation is transitive on
its members. -/
theorem chain'_pairwise_local (R : Item → Item → Prop) :
    ∀ l : List Item, l.Chain' R →
      (∀ a ∈ l, ∀ b ∈ l, ∀ c ∈ l, R a b → R b c → R a c) →
      l.Pairwise R := by
  intro l
  induction l with
  | nil => intro _ _; exact List.Pairwise.nil
  | cons x xs ih =>
    intro hch htr
    have hxs : xs.Pairwise R :=
      ih hch.tail (fun a ha b hb c hc =>
        htr a (List.mem_cons_of_mem _ ha) b (List.mem_cons_of_mem _ hb)
          c (List.mem_cons_of_mem _ hc))
    refine List.pairwise_cons.mpr ⟨?_, hxs⟩
    intro z hz
    cases xs with
    | nil => cases hz
    | cons y ys =>
      have hxy : R x y := (List.chain'_cons.mp hch).1
      rcases List.mem_cons.mp hz with hzy | hzys
      · exact hzy ▸ hxy
      · have hyz : R y z := (List.pairwise_cons.mp hxs).1 z hzys
        exact htr x (by simp) y (by simp) z
          (List.mem_cons_of_mem _ hz) hxy hyz

/-- A comparator verdict forces the primary keys into order. -/
theorem nodeLe_sortIndex_le (a b : Item) (h : nodeLe a b = true) :
    a.sortIndex ≤ b.sortIndex := by
  unfold nodeLe nodeCmp at h
  rcases ha : a.lifecycleSortIndex with _ | m <;>
    rcases hb : b.lifecycleSortIndex with _ | n <;>
      rw [ha, hb] at h <;> split_ifs at h <;>
        simp only [decide_eq_true_eq] at h <;> omega

/-- A strictly smaller primary key always sorts earlier. -/
theorem nodeLe_of_sortIndex_lt (a b : Item) (h : a.sortIndex < b.sortIndex) :
    nodeLe a b = true := by
  unfold nodeLe nodeCmp
  rw [if_pos (by omega : a.sortIndex ≠ b.sortIndex)]
  simp only [decide_eq_true_eq]
  omega

/-- On a primary-key tie between two lifecycle items, the comparator is the
lexicographic secondary-key-then-index order. -/
theorem nodeLe_eq_life (a b : Item) (hsi : a.sortIndex = b.sortIndex)
    (hla : a.sectionName = some ("lifecycle"))
    (hlb : b.sectionName = some ("lifecycle")) :
    (nodeLe a b = true
      ↔ (skLtB a.lifecycleSortIndex b.lifecycleSortIndex = true
          ∨ (a.lifecycleSortIndex = b.lifecycleSortIndex ∧ a.index ≤ b.index))) := by
  unfold nodeLe nodeCmp skLtB
  rw [if_neg (by simp [hsi]), if_pos ⟨hla, hlb⟩]
  by_cases h3 : a.lifecycleSortIndex = b.lifecycleSortIndex
  · rw [if_pos h3]
    simp only [decide_eq_true_eq]
    constructor
    · intro h
      exact Or.inr ⟨h3, by omega⟩
    · intro h
      rcases h with h | h
      · rw [h3] at h
        rcases hb : b.lifecycleSortIndex with _ | n <;> rw [hb] at h <;>
          simp [skLtB] at h
      · omega
  · rw [if_neg h3]
    rcases ha : a.lifecycleSortIndex with _ | m <;>
      rcases hb : b.lifecycleSortIndex with _ | n <;>
        simp_all [decide_eq_true_eq] <;> omega

/-- On a primary-key tie not between two lifecycle items, the comparator is
the original-index order. -/
theorem nodeLe_eq_nonlife (a b : Item) (hsi : a.sortIndex = b.sortIndex)
    (hnl : ¬ (a.sectionName = some ("lifecycle")
        ∧ b.sectionName = some ("lifecycle"))) :
    (nodeLe a b = true ↔ a.index ≤ b.index) := by
  unfold nodeLe nodeCmp
  rw [if_neg (by simp [hsi]), if_neg hnl]
  simp only [decide_eq_true_eq]
  omega

/-- Strict secondary-key comparison is transitive, also through equality. -/
theorem skLtB_trans (x y z : Option Nat) :
    (skLtB x y = true → skLtB y z = true → skLtB x z = true)
      ∧ (skLtB x y = true → y = z → skLtB x z = true)
      ∧ (x = y → skLtB y z = true → skLtB x z = true) := by
  rcases x with _ | m <;> rcases y with _ | n <;> rcases z with _ | p <;>
    refine ⟨?_, ?_, ?_⟩ <;> intro h1 h2 <;> simp_all [skLtB] <;> omega

/-- The comparator is transitive across any three items whose equal primary
keys never mix lifecycle with non-lifecycle items. -/
theorem nodeLe_trans3 (a b c : Item)
    (h1 : a.sortIndex = b.sortIndex →
      ((a.sectionName = some ("lifecycle")) ↔ (b.sectionName = some ("lifecycle"))))
    (h2 : b.sortIndex = c.sortIndex →
      ((b.sectionName = some ("lifecycle")) ↔ (c.sectionName = some ("lifecycle")))) :
    nodeLe a b = true → nodeLe b c = true → nodeLe a c = true := by
  intro hab hbc
  have hle1 := nodeLe_sortIndex_le a b hab
  have hle2 := nodeLe_sortIndex_le b c hbc
  by_cases hac : a.sortIndex < c.sortIndex
  · exact nodeLe_of_sortIndex_lt a c hac
  · have hsiac : a.sortIndex = c.sortIndex := by omega
    have hsiab : a.sortIndex = b.sortIndex := by omega
    have hsibc : b.sortIndex = c.sortIndex := by omega
    by_cases hlife : a.sectionName = some ("lifecycle")
    · have hlb : b.sectionName = some ("lifecycle") := (h1 hsiab).mp hlife
      have hlc : c.sectionName = some ("lifecycle") := (h2 hsibc).mp hlb
      have e1 := (nodeLe_eq_life a b hsiab hlife hlb).mp hab
      have e2 := (nodeLe_eq_life b c hsibc hlb hlc).mp hbc
      refine (nodeLe_eq_life a c hsiac hlife hlc).mpr ?_
      rcases e1 with hlt1 | ⟨heq1, hi1⟩
      · rcases e2 with hlt2 | ⟨heq2, hi2⟩
        · exact Or.inl ((skLtB_trans _ _ _).1 hlt1 hlt2)
        · exact Or.inl ((skLtB_trans _ _ _).2.1 hlt1 heq2)
      · rcases e2 with hlt2 | ⟨heq2, hi2⟩
        · exact Or.inl ((skLtB_trans _ _ _).2.2 heq1 hlt2)
        · exact Or.inr ⟨heq1.trans heq2, by omega⟩
    · have hnb : ¬ b.sectionName = some ("lifecycle") :=
        fun hh => hlife ((h1 hsiab).mpr hh)
      have hnc : ¬ c.sectionName = some ("lifecycle") :=
        fun hh => hnb ((h2 hsibc).mpr hh)
      have e1 := (nodeLe_eq_nonlife a b hsiab (fun hh => hlife hh.1)).mp hab
      have e2 := (nodeLe_eq_nonlife b c hsibc (fun hh => hnb hh.1)).mp hbc
      exact (nodeLe_eq_nonlife a c hsiac (fun hh => hlife hh.1)).mpr (by omega)

/-- The order stated by the specification coincides with the comparator. -/
theorem claimRel_iff_nodeLe (a b : Item) :
    (claimRel a b = true) ↔ (nodeLe a b = true) := by
  unfold claimRel
  by_cases h : a.sortIndex < b.sortIndex
  · rw [if_pos h]
    simp [nodeLe_of_sortIndex_lt a b h]
  · rw [if_neg h]
    by_cases he : a.sortIndex = b.sortIndex
    · rw [if_pos he]
      by_cases hl : a.sectionName = some ("lifecycle")
          ∧ b.sectionName = some ("lifecycle")
      · rw [if_pos (by simp [hl.1, hl.2])]
        rw [nodeLe_eq_life a b he hl.1 hl.2]
        simp
      · rw [if_neg (by simpa using hl)]
        rw [nodeLe_eq_nonlife a b he hl]
        simp
    · rw [if_neg he]
      constructor
      · intro hf
        exact absurd hf (by simp)
      · intro hn
        exact absurd (nodeLe_sortIndex_le a b hn) (by omega)

/-- Claim C1, amended: provided no two items with equal primary key differ
on being lifecycle items (so the comparator is consistent — in particular
whenever the lifecycle tag occurs in the configured ordering), `sortNodes`
returns a permutation of its input ordered by primary key ascending, then
secondary key ascending between lifecycle items, then original index
ascending. -/
theorem c1_amended :
    ∀ l : List Item,
      (∀ a ∈ l, ∀ b ∈ l, a.sortIndex = b.sortIndex →
        ((a.sectionName = some ("lifecycle")) ↔ (b.sectionName = some ("lifecycle")))) →
      (sortNodes l).Perm l
        ∧ ((sortNodes l).Pairwise fun a b => claimRel a b = true) := by
  intro l hH
  have hperm : (sortNodes l).Perm l := insertionSort_perm nodeLe l
  refine ⟨hperm, ?_⟩
  have hchain := insertionSort_chain nodeLe nodeLe_total l
  have hmem : ∀ x ∈ sortNodes l, x ∈ l := fun x hx => hperm.subset hx
  have hpw : (sortNodes l).Pairwise (fun a b => nodeLe a b = true) :=
    chain'_pairwise_local _ _ hchain
      (fun a ha b hb c hc hab hbc =>
        nodeLe_trans3 a b c (hH a (hmem a ha) b (hmem b hb))
          (hH b (hmem b hb) c (hmem c hc)) hab hbc)
  exact hpw.imp (fun h => (claimRel_iff_nodeLe _ _).mpr h)

/-- Witness for the amended claim C1 at a three-item program classified
under the default ordering. -/
theorem c1_witness :
    (∀ a ∈ c1GoodItems, ∀ b ∈ c1GoodItems, a.sortIndex = b.sortIndex →
        ((a.sectionName = some ("lifecycle")) ↔ (b.sectionName = some ("lifecycle"))))
      ∧ ((sortNodes c1GoodItems).Perm c1GoodItems
          ∧ ((sortNodes c1GoodItems).Pairwise fun a b => claimRel a b = true)) :=
  ⟨by decide, c1_amended c1GoodItems (by decide)⟩

/-! ## Grouping -/

/-- Full specification of the `groupNodes` loop: the emitted groups
partition the processed items in order, every group is nonempty and
homogeneous for `groupName`, adjacent groups carry different group names,
and the first emitted group carries the running name. -/
theorem groupNodesGo_spec :
    ∀ (rest : List Item) (curName : Option String) (cur : List Item)
      (rs re : Nat),
      cur ≠ [] → (∀ it ∈ cur, groupNameOpt it.sectionName = curName) →
      (((groupNodesGo curName cur rs re rest).map Group.items).flatten
          = cur ++ rest)
        ∧ (∀ g ∈ groupNodesGo curName cur rs re rest,
            g.items ≠ [] ∧ ∀ it ∈ g.items, groupNameOpt it.sectionName = g.group)
        ∧ ((groupNodesGo curName cur rs re rest).Chain'
            fun g h => g.group ≠ h.group)
        ∧ ((groupNodesGo curName cur rs re rest).head?.map Group.group
            = some curName) := by
  intro rest
  induction rest with
  | nil =>
    intro curName cur rs re hne hcur
    refine ⟨by simp [groupNodesGo], ?_, by simp [groupNodesGo], by simp [groupNodesGo]⟩
    intro g hg
    rw [groupNodesGo] at hg
    simp at hg
    subst hg
    exact ⟨hne, hcur⟩
  | cons item rest ih =>
    intro curName cur rs re hne hcur
    rw [groupNodesGo]
    by_cases hsame : groupNameOpt item.sectionName = curName
    · rw [if_pos hsame]
      have hcur' : ∀ it ∈ cur ++ [item], groupNameOpt it.sectionName = curName := by
        intro it hit
        rcases List.mem_append.mp hit with h | h
        · exact hcur it h
        · simp at h
          subst h
          exact hsame
      have hrec := ih curName (cur ++ [item]) rs item.node.range1
        (by simp) hcur'
      refine ⟨?_, hrec.2.1, hrec.2.2.1, hrec.2.2.2⟩
      rw [hrec.1]
      simp
    · rw [if_neg hsame]
      have hrec := ih (groupNameOpt item.sectionName) [item]
        item.node.range0 item.node.range1 (by simp) (by simp)
      refine ⟨?_, ?_, ?_, by simp⟩
      · rw [List.map_cons, List.flatten_cons, hrec.1]
        simp
      · intro g hg
        rcases List.mem_cons.mp hg with h | h
        · subst h
          exact ⟨hne, hcur⟩
        · exact hrec.2.1 g h
      · refine List.chain'_cons'.mpr ⟨?_, hrec.2.2.1⟩
        intro g hg
        have := hrec.2.2.2
        cases hh : (groupNodesGo (groupNameOpt item.sectionName) [item]
            item.node.range0 item.node.range1 rest).head? with
        | none =>
          rw [hh] at hg
          cases hg
        | some g0 =>
          rw [hh] at hg this
          simp at hg this
          subst hg
          rw [this]
          exact fun hc => hsame hc.symm

/-- Claim C8: `groupNodes` partitions its input in order — the
concatenation of the blocks' item lists is the input —, every block is a
nonempty run of items sharing one group name, adjacent blocks carry
different group names, and the empty input produces no blocks. -/
theorem c8_grouping :
    ∀ l : List Item,
      (((groupNodes l).map Group.items).flatten = l)
        ∧ (∀ g ∈ groupNodes l,
            g.items ≠ [] ∧ ∀ it ∈ g.items, groupNameOpt it.sectionName = g.group)
        ∧ ((groupNodes l).Chain' fun g h => g.group ≠ h.group)
        ∧ groupNodes ([] : List Item) = [] := by
  intro l
  cases l with
  | nil => exact ⟨rfl, by simp [groupNodes], by simp [groupNodes], rfl⟩
  | cons x xs =>
    have h := groupNodesGo_spec xs (groupNameOpt x.sectionName) [x]
      x.node.range0 x.node.range1 (by simp) (by simp)
    exact ⟨h.1, h.2.1, h.2.2.1, rfl⟩

/-! ## Lemmas about the blank-line-collapsing pass -/

/-- An element failing the predicate bounds `takeWhile` strictly below the
full length. -/
theorem takeWhile_length_lt (p : Char → Bool) :
    ∀ (l : List Char), (∃ x ∈ l, p x = false) →
      (l.takeWhile p).length < l.length := by
  intro l
  induction l with
  | nil => rintro ⟨x, hx, -⟩; cases hx
  | cons c cs ih =>
    rintro ⟨x, hx, hpx⟩
    rw [List.takeWhile_cons]
    split
    · next hc =>
      have hxcs : x ∈ cs := by
        rcases List.mem_cons.mp hx with h | h
        · subst h; rw [hc] at hpx; cases hpx
        · exact h
      have := ih ⟨x, hxcs, hpx⟩
      simpa using this
    · simp

/-- Elements of `takeWhile` belong to the list. -/
theorem mem_of_mem_takeWhile' (p : Char → Bool) :
    ∀ (l : List Char) (x : Char), x ∈ l.takeWhile p → x ∈ l := by
  intro l
  induction l with
  | nil => intro x hx; cases hx
  | cons c cs ih =>
    intro x hx
    rw [List.takeWhile_cons] at hx
    split at hx
    · rcases List.mem_cons.mp hx with h | h
      · exact h ▸ List.mem_cons_self c cs
      · exact List.mem_cons_of_mem c (ih x h)
    · cases hx

/-- The head of a `dropWhile` fails the predicate. -/
theorem dropWhile_head?_neg (p : Char → Bool) :
    ∀ (l : List Char) (x : Char), (l.dropWhile p).head? = some x →
      p x = false := by
  intro l
  induction l with
  | nil => intro x h; cases h
  | cons c cs ih =>
    intro x h
    rw [List.dropWhile_cons] at h
    split at h
    · exact ih x h
    · next hc =>
      rw [List.head?_cons] at h
      cases h
      simpa using hc

/-- `getLast?` of an append with nonempty second part. -/
theorem getLast?_append_ne (a b : List Char) (hb : b ≠ []) :
    (a ++ b).getLast? = b.getLast? := by
  rw [List.getLast?_append]
  cases hl : b.getLast? with
  | none => exact absurd (List.getLast?_eq_none_iff.mp hl) hb
  | some x => rfl

/-- `getLast?` ignores the head when the tail is nonempty. -/
theorem getLast?_cons_of_ne (c : Char) (l : List Char) (h : l ≠ []) :
    (c :: l).getLast? = l.getLast? := by
  cases l with
  | nil => exact absurd rfl h
  | cons d ds => rfl

/-- `dropWhile` keeps a last element that fails the predicate. -/
theorem dropWhile_getLast? (p : Char → Bool) :
    ∀ (l : List Char) (k : Char), l.getLast? = some k → p k = false →
      (l.dropWhile p) ≠ [] ∧ (l.dropWhile p).getLast? = some k := by
  intro l
  induction l with
  | nil => intro k h; cases h
  | cons c cs ih =>
    intro k h hk
    rw [List.dropWhile_cons]
    cases hcs : cs with
    | nil =>
      subst hcs
      rw [List.getLast?_singleton] at h
      cases h
      rw [if_neg (by simp [hk])]
      exact ⟨by simp, by simp⟩
    | cons d ds =>
      have hlast : cs.getLast? = some k := by
        rw [hcs]
        rw [hcs, getLast?_cons_of_ne c (d :: ds) (by simp)] at h
        exact h
      rw [← hcs]
      split
      · exact ih k hlast hk
      · refine ⟨by simp, ?_⟩
        rw [getLast?_cons_of_ne c cs (by simp [hcs])]
        exact hlast

/-- Everything in `afterLastNl l` is a non-newline element of `l`. -/
theorem afterLastNl_mem (l : List Char) (x : Char) (hx : x ∈ afterLastNl l) :
    x ∈ l ∧ x ≠ '\n' := by
  unfold afterLastNl at hx
  rw [List.mem_reverse] at hx
  refine ⟨?_, by simpa using List.mem_takeWhile_imp hx⟩
  have := mem_of_mem_takeWhile' _ _ _ hx
  rw [List.mem_reverse] at this
  exact this

/-- `afterLastNl` strictly shrinks a list containing a newline. -/
theorem afterLastNl_length_lt (l : List Char) (h : '\n' ∈ l) :
    (afterLastNl l).length < l.length := by
  unfold afterLastNl
  rw [List.length_reverse]
  have : ('\n' : Char) ∈ l.reverse := List.mem_reverse.mpr h
  have hlt := takeWhile_length_lt (fun c => c ≠ '\n') l.reverse
    ⟨'\n', this, by simp⟩
  simpa using hlt

/-- A successful match consumes at least one character. -/
theorem matchTail_length (rest r₂ : List Char)
    (h : matchTail rest = some r₂) : r₂.length < rest.length := by
  unfold matchTail at h
  split at h
  · next hnl =>
    cases h
    have hmem : ('\n' : Char) ∈ rest.takeWhile isWsChar := by
      simpa using hnl
    have h1 := afterLastNl_length_lt (rest.takeWhile isWsChar) hmem
    have h2 : (rest.takeWhile isWsChar).length
        + (rest.dropWhile isWsChar).length = rest.length := by
      rw [← List.length_append, List.takeWhile_append_dropWhile]
    rw [List.length_append]
    omega
  · cases h

/-- One-step unfolding of `collapseAux`. -/
theorem collapseAux_cons (f : Nat) (c : Char) (rest : List Char) :
    collapseAux (f + 1) (c :: rest)
      = if c = '\n' then
          (match matchTail rest with
           | some r₂ => '\n' :: collapseAux f r₂
           | none => '\n' :: collapseAux f rest)
        else c :: collapseAux f rest := rfl

/-- The fuel does not matter once it covers the input length. -/
theorem collapseAux_fuel :
    ∀ (f₁ : Nat) (l : List Char) (f₂ : Nat), l.length ≤ f₁ → l.length ≤ f₂ →
      collapseAux f₁ l = collapseAux f₂ l := by
  intro f₁
  induction f₁ with
  | zero =>
    intro l f₂ h1 _
    have hl : l = [] := List.eq_nil_of_length_eq_zero (Nat.le_zero.mp h1)
    subst hl
    cases f₂ <;> rfl
  | succ f ih =>
    intro l f₂ h1 h2
    cases l with
    | nil => cases f₂ <;> rfl
    | cons c rest =>
      cases f₂ with
      | zero => simp at h2
      | succ g =>
        have hr : rest.length ≤ f := by simpa using h1
        have hr2 : rest.length ≤ g := by simpa using h2
        rw [collapseAux_cons, collapseAux_cons]
        by_cases hc : c = '\n'
        · rw [if_pos hc, if_pos hc]
          cases hm : matchTail rest with
          | none =>
            show '\n' :: collapseAux f rest = '\n' :: collapseAux g rest
            rw [ih rest g hr hr2]
          | some r₂ =>
            have hlt := matchTail_length rest r₂ hm
            show '\n' :: collapseAux f r₂ = '\n' :: collapseAux g r₂
            rw [ih r₂ g (by omega) (by omega)]
        · rw [if_neg hc, if_neg hc, ih rest g hr hr2]

/-- Unfolding `collapseChars` at a non-newline head. -/
theorem collapseChars_cons_not_nl (c : Char) (rest : List Char)
    (hc : c ≠ '\n') : collapseChars (c :: rest) = c :: collapseChars rest := by
  show collapseAux (rest.length + 1) (c :: rest) = c :: collapseChars rest
  rw [collapseAux_cons, if_neg hc]
  rfl

/-- Unfolding `collapseChars` at a newline with no blank run after it. -/
theorem collapseChars_cons_nl_none (rest : List Char)
    (h : matchTail rest = none) :
    collapseChars ('\n' :: rest) = '\n' :: collapseChars rest := by
  show collapseAux (rest.length + 1) ('\n' :: rest) = '\n' :: collapseChars rest
  rw [collapseAux_cons, if_pos rfl, h]
  rfl

/-- Unfolding `collapseChars` at a newline starting a blank run. -/
theorem collapseChars_cons_nl_some (rest r₂ : List Char)
    (h : matchTail rest = some r₂) :
    collapseChars ('\n' :: rest) = '\n' :: collapseChars r₂ := by
  show collapseAux (rest.length + 1) ('\n' :: rest) = '\n' :: collapseChars r₂
  rw [collapseAux_cons, if_pos rfl, h]
  show '\n' :: collapseAux rest.length r₂ = '\n' :: collapseChars r₂
  have hlt := matchTail_length rest r₂ h
  rw [collapseAux_fuel rest.length r₂ r₂.length (by omega) (Nat.le_refl _)]
  rfl

/-- The collapsing pass preserves the first character. -/
theorem collapseChars_head? (l : List Char) :
    (collapseChars l).head? = l.head? := by
  cases l with
  | nil => rfl
  | cons c rest =>
    by_cases hc : c = '\n'
    · subst hc
      cases hm : matchTail rest with
      | none => rw [collapseChars_cons_nl_none rest hm]; rfl
      | some r₂ => rw [collapseChars_cons_nl_some rest r₂ hm]; rfl
    · rw [collapseChars_cons_not_nl c rest hc]; rfl

/-- A newline-free prefix passes through the collapsing pass unchanged. -/
theorem collapseChars_append_no_nl :
    ∀ (a b : List Char), (∀ x ∈ a, x ≠ '\n') →
      collapseChars (a ++ b) = a ++ collapseChars b := by
  intro a
  induction a with
  | nil => intro b _; rfl
  | cons c cs ih =>
    intro b h
    have hc : c ≠ '\n' := h c (by simp)
    rw [List.cons_append, collapseChars_cons_not_nl c _ hc,
      ih b (fun x hx => h x (by simp [hx]))]
    rfl

/-- A match's remainder keeps a non-whitespace last character. -/
theorem matchTail_getLast? (rest r₂ : List Char) (k : Char)
    (h : matchTail rest = some r₂) (hk : rest.getLast? = some k)
    (hkw : isWsChar k = false) : r₂.getLast? = some k := by
  unfold matchTail at h
  split at h
  · cases h
    have hd := dropWhile_getLast? isWsChar rest k hk hkw
    rw [getLast?_append_ne _ _ hd.1]
    exact hd.2
  · cases h

/-- The collapsing pass preserves a non-whitespace last character (and
nonemptiness). -/
theorem collapseChars_getLast :
    ∀ (n : Nat) (l : List Char), l.length ≤ n → ∀ k, l.getLast? = some k →
      isWsChar k = false →
      collapseChars l ≠ [] ∧ (collapseChars l).getLast? = some k := by
  intro n
  induction n with
  | zero =>
    intro l h k hk _
    have hl : l = [] := List.eq_nil_of_length_eq_zero (Nat.le_zero.mp h)
    subst hl
    cases hk
  | succ m ih =>
    intro l hlen k hk hkw
    cases l with
    | nil => cases hk
    | cons c rest =>
      cases hrest : rest with
      | nil =>
        subst hrest
        rw [List.getLast?_singleton] at hk
        injection hk with hkk
        subst hkk
        have hc : c ≠ '\n' := by
          intro hh
          subst hh
          exact absurd hkw (by decide)
        rw [collapseChars_cons_not_nl c [] hc]
        exact ⟨List.cons_ne_nil _ _, rfl⟩
      | cons d ds =>
        subst hrest
        have hkrest : (d :: ds).getLast? = some k := hk
        have hlen' : (d :: ds).length ≤ m := by simpa using hlen
        by_cases hc : c = '\n'
        · subst hc
          cases hm : matchTail (d :: ds) with
          | none =>
            rw [collapseChars_cons_nl_none _ hm]
            have hrec := ih (d :: ds) hlen' k hkrest hkw
            refine ⟨by simp, ?_⟩
            rw [getLast?_cons_of_ne _ _ hrec.1]
            exact hrec.2
          | some r₂ =>
            rw [collapseChars_cons_nl_some _ _ hm]
            have hr2last := matchTail_getLast? (d :: ds) r₂ k hm hkrest hkw
            have hlt := matchTail_length (d :: ds) r₂ hm
            have hrec := ih r₂ (by omega) k hr2last hkw
            refine ⟨by simp, ?_⟩
            rw [getLast?_cons_of_ne _ _ hrec.1]
            exact hrec.2
        · rw [collapseChars_cons_not_nl c _ hc]
          have hrec := ih (d :: ds) hlen' k hkrest hkw
          refine ⟨by simp, ?_⟩
          rw [getLast?_cons_of_ne _ _ hrec.1]
          exact hrec.2

/-- A list whose head fails the predicate has an empty `takeWhile`. -/
theorem takeWhile_nil_of_head (p : Char → Bool) (l : List Char)
    (h : ∀ c, l.head? = some c → p c = false) : l.takeWhile p = [] := by
  cases l with
  | nil => rfl
  | cons c cs =>
    rw [List.takeWhile_cons, if_neg (by simp [h c rfl])]

/-- No match can start before a non-whitespace character. -/
theorem matchTail_none_of_head (rest : List Char)
    (h : ∀ c, rest.head? = some c → isWsChar c = false) :
    matchTail rest = none := by
  unfold matchTail
  rw [takeWhile_nil_of_head isWsChar rest h]
  rfl

/-- Splitting the collapsing pass at a single line break guarded by
non-whitespace characters on both sides. -/
theorem collapseChars_sep :
    ∀ (n : Nat) (t rest : List Char), t.length ≤ n → t ≠ [] →
      (∀ k, t.getLast? = some k → isWsChar k = false) →
      (∀ c, rest.head? = some c → isWsChar c = false) →
      collapseChars (t ++ '\n' :: rest)
        = collapseChars t ++ '\n' :: collapseChars rest := by
  intro n
  induction n with
  | zero =>
    intro t rest h1 h2 _ _
    exact absurd (List.eq_nil_of_length_eq_zero (Nat.le_zero.mp h1)) h2
  | succ m ih =>
    intro t rest hlen htne hlast hhead
    cases t with
    | nil => exact absurd rfl htne
    | cons c t' =>
      by_cases ht'e : t' = []
      · subst ht'e
        have hcw : isWsChar c = false := hlast c rfl
        have hc : c ≠ '\n' := by
          intro hh
          subst hh
          exact absurd hcw (by decide)
        rw [List.cons_append, List.nil_append,
          collapseChars_cons_not_nl c ('\n' :: rest) hc,
          collapseChars_cons_nl_none rest (matchTail_none_of_head rest hhead),
          collapseChars_cons_not_nl c [] hc]
        rfl
      · have ht'ne : t' ≠ [] := ht'e
        have hlast' : t'.getLast? = some (t'.getLast ht'ne) := List.getLast?_eq_getLast t' ht'ne
        set k := t'.getLast ht'ne with hkdef
        have hkt : (c :: t').getLast? = some k := by
          rw [getLast?_cons_of_ne c t' ht'ne]
          exact hlast'
        have hkw : isWsChar k = false := hlast k hkt
        have hlen' : t'.length ≤ m := by simpa using hlen
        by_cases hc : c = '\n'
        · subst hc
          have hkmem : k ∈ t' := List.mem_of_mem_getLast? hlast'
          have hwlt : (t'.takeWhile isWsChar).length < t'.length :=
            takeWhile_length_lt isWsChar t' ⟨k, hkmem, hkw⟩
          have hdne : t'.dropWhile isWsChar ≠ []
              ∧ (t'.dropWhile isWsChar).getLast? = some k :=
            dropWhile_getLast? isWsChar t' k hlast' hkw
          have hwtake : (t' ++ '\n' :: rest).takeWhile isWsChar
              = t'.takeWhile isWsChar := by
            rw [List.takeWhile_append, if_neg (by omega)]
          have hwdrop : (t' ++ '\n' :: rest).dropWhile isWsChar
              = t'.dropWhile isWsChar ++ '\n' :: rest := by
            rw [List.dropWhile_append,
              if_neg (by simp [List.isEmpty_iff, hdne.1])]
          by_cases helem : (t'.takeWhile isWsChar).elem '\n'
          · have hm1 : matchTail (t' ++ '\n' :: rest)
                = some (afterLastNl (t'.takeWhile isWsChar)
                    ++ (t'.dropWhile isWsChar ++ '\n' :: rest)) := by
              unfold matchTail
              rw [hwtake, hwdrop, if_pos helem]
            have hm2 : matchTail t'
                = some (afterLastNl (t'.takeWhile isWsChar)
                    ++ t'.dropWhile isWsChar) := by
              unfold matchTail
              rw [if_pos helem]
            have hnlmem : ('\n' : Char) ∈ t'.takeWhile isWsChar := by
              simpa using helem
            have halt := afterLastNl_length_lt (t'.takeWhile isWsChar) hnlmem
            have hsum : (t'.takeWhile isWsChar).length
                + (t'.dropWhile isWsChar).length = t'.length := by
              rw [← List.length_append, List.takeWhile_append_dropWhile]
            have ht''len : (afterLastNl (t'.takeWhile isWsChar)
                ++ t'.dropWhile isWsChar).length ≤ m := by
              rw [List.length_append]
              omega
            have ht''ne : afterLastNl (t'.takeWhile isWsChar)
                ++ t'.dropWhile isWsChar ≠ [] := by
              simp [hdne.1]
            have ht''last : (afterLastNl (t'.takeWhile isWsChar)
                ++ t'.dropWhile isWsChar).getLast? = some k := by
              rw [getLast?_append_ne _ _ hdne.1]
              exact hdne.2
            have hm1' : matchTail (t' ++ '\n' :: rest)
                = some ((afterLastNl (t'.takeWhile isWsChar)
                    ++ t'.dropWhile isWsChar) ++ '\n' :: rest) := by
              rw [hm1, List.append_assoc]
            rw [List.cons_append]
            rw [collapseChars_cons_nl_some _ _ hm1']
            rw [collapseChars_cons_nl_some _ _ hm2]
            rw [ih _ rest ht''len ht''ne
                (fun k' hk' => by rw [ht''last] at hk'; cases hk'; exact hkw)
                hhead]
            rfl
          · have hm1 : matchTail (t' ++ '\n' :: rest) = none := by
              unfold matchTail
              rw [hwtake, if_neg helem]
            have hm2 : matchTail t' = none := by
              unfold matchTail
              rw [if_neg helem]
            rw [List.cons_append,
              collapseChars_cons_nl_none _ hm1,
              collapseChars_cons_nl_none _ hm2,
              ih t' rest hlen' ht'ne
                (fun k' hk' => by rw [hlast'] at hk'; cases hk'; exact hkw)
                hhead]
            rfl
        · rw [List.cons_append, collapseChars_cons_not_nl c _ hc,
            collapseChars_cons_not_nl c t' hc,
            ih t' rest hlen' ht'ne
              (fun k' hk' => by rw [hlast'] at hk'; cases hk'; exact hkw)
              hhead]
          rfl

/-- Two-element unfolding of `intercalate`. -/
theorem intercalate_cons₂ (sep : List Char) (a b : List Char)
    (l : List (List Char)) :
    List.intercalate sep (a :: b :: l)
      = a ++ sep ++ List.intercalate sep (b :: l) := by
  simp [List.intercalate, List.intersperse]

/-- `intercalate` of a singleton. -/
theorem intercalate_single (sep : List Char) (a : List Char) :
    List.intercalate sep [a] = a := by
  simp [List.intercalate]

/-- The head of an `intercalate` over a nonempty first chunk. -/
theorem intercalate_head? (sep : List Char) :
    ∀ (ts : List (List Char)) (a : List Char), a ≠ [] →
      (List.intercalate sep (a :: ts)).head? = a.head? := by
  intro ts a ha
  cases ts with
  | nil => rw [intercalate_single]
  | cons b l =>
    rw [intercalate_cons₂, List.append_assoc, List.head?_append]
    cases hh : a.head? with
    | none => exact absurd (List.head?_eq_none_iff.mp hh) ha
    | some c => rfl

/-- The last element of an `intercalate` whose final chunk is nonempty. -/
theorem intercalate_getLast?_concat (sep : List Char) :
    ∀ (ts : List (List Char)) (a : List Char), a ≠ [] →
      (List.intercalate sep (ts ++ [a])).getLast? = a.getLast? := by
  intro ts
  induction ts with
  | nil =>
    intro a _
    rw [List.nil_append, intercalate_single]
  | cons b l ih =>
    intro a ha
    have hrec := ih a ha
    have hne : List.intercalate sep (l ++ [a]) ≠ [] := by
      intro hh
      rw [hh] at hrec
      exact absurd (List.getLast?_eq_none_iff.mp hrec.symm) ha
    obtain ⟨c, cs, hcs⟩ : ∃ c cs, l ++ [a] = c :: cs := by
      cases l with
      | nil => exact ⟨a, [], rfl⟩
      | cons x xs => exact ⟨x, xs ++ [a], by simp⟩
    rw [List.cons_append, hcs, intercalate_cons₂, ← hcs, List.append_assoc,
      getLast?_append_ne _ _ (by simp [hne]),
      getLast?_append_ne _ _ hne]
    exact hrec

/-- Extract the head condition of `goodText`. -/
theorem goodText_head (t : List Char) (h : goodText t = true) :
    ∃ c, t.head? = some c ∧ isWsChar c = false := by
  unfold goodText at h
  rw [Bool.and_eq_true] at h
  cases hh : t.head? with
  | none => rw [hh] at h; cases h.1
  | some c =>
    rw [hh] at h
    exact ⟨c, rfl, by simpa using h.1⟩

/-- Extract the last-character condition of `goodText`. -/
theorem goodText_getLast (t : List Char) (h : goodText t = true) :
    ∃ k, t.getLast? = some k ∧ isWsChar k = false := by
  unfold goodText at h
  rw [Bool.and_eq_true] at h
  cases hh : t.getLast? with
  | none => rw [hh] at h; cases h.2
  | some k =>
    rw [hh] at h
    exact ⟨k, rfl, by simpa using h.2⟩

/-- Good texts are nonempty. -/
theorem goodText_ne_nil (t : List Char) (h : goodText t = true) : t ≠ [] := by
  obtain ⟨c, hc, -⟩ := goodText_head t h
  intro hh
  rw [hh] at hc
  cases hc

/-- Build `goodText` from its two conditions. -/
theorem goodText_intro (t : List Char) (c k : Char) (hc : t.head? = some c)
    (hcw : isWsChar c = false) (hk : t.getLast? = some k)
    (hkw : isWsChar k = false) : goodText t = true := by
  unfold goodText
  rw [hc, hk, Bool.and_eq_true]
  exact ⟨by simpa using hcw, by simpa using hkw⟩

/-- An `intercalate` of good chunks is good: it starts and ends with the
non-whitespace boundary characters of its outer chunks. -/
theorem intercalate_good (ts : List (List Char)) (hne : ts ≠ [])
    (h : ∀ t ∈ ts, goodText t = true) :
    goodText (List.intercalate ['\n'] ts) = true := by
  cases ts with
  | nil => exact absurd rfl hne
  | cons a ts' =>
    have hga := h a (List.mem_cons_self _ _)
    obtain ⟨c, hc, hcw⟩ := goodText_head a hga
    rcases List.eq_nil_or_concat' (a :: ts') with hnil | ⟨L, b, hL⟩
    · cases hnil
    · have hgb : goodText b = true := by
        apply h
        rw [hL]
        simp
      obtain ⟨k, hk, hkw⟩ := goodText_getLast b hgb
      refine goodText_intro _ c k ?_ hcw ?_ hkw
      · rw [intercalate_head? _ ts' a (goodText_ne_nil a hga)]
        exact hc
      · rw [hL, intercalate_getLast?_concat _ L b (goodText_ne_nil b hgb)]
        exact hk

/-- The collapsing pass distributes over single-line-break joins of good
chunks. -/
theorem collapse_intercalate :
    ∀ ts : List (List Char), (∀ t ∈ ts, goodText t = true) →
      collapseChars (List.intercalate ['\n'] ts)
        = List.intercalate ['\n'] (ts.map collapseChars) := by
  intro ts
  induction ts with
  | nil => intro _; rfl
  | cons a ts ih =>
    intro h
    cases ts with
    | nil =>
      rw [intercalate_single, List.map_cons, List.map_nil, intercalate_single]
    | cons b l =>
      have hga := h a (List.mem_cons_self _ _)
      have hgb : goodText b = true := h b (by simp)
      obtain ⟨k, hk, hkw⟩ := goodText_getLast a hga
      obtain ⟨c, hc, hcw⟩ := goodText_head b hgb
      have hsep : (['\n'] : List Char) ++ List.intercalate ['\n'] (b :: l)
          = '\n' :: List.intercalate ['\n'] (b :: l) := rfl
      rw [intercalate_cons₂, List.append_assoc, hsep,
        collapseChars_sep a.length a _ (Nat.le_refl _)
          (goodText_ne_nil a hga)
          (fun k' hk' => by rw [hk] at hk'; cases hk'; exact hkw)
          (fun c' hc' => by
            rw [intercalate_head? _ l b (goodText_ne_nil b hgb), hc] at hc'
            cases hc'
            exact hcw),
        ih (fun t ht => h t (List.mem_cons_of_mem _ ht))]
      rw [show List.map collapseChars (a :: b :: l)
          = collapseChars a :: collapseChars b :: List.map collapseChars l
          from rfl,
        intercalate_cons₂, List.append_assoc]
      rfl

/-- One-step unfolding of `isCollapsed`. -/
theorem isCollapsed_cons (c : Char) (rest : List Char) :
    isCollapsed (c :: rest)
      = ((if c = '\n' then !((rest.takeWhile isWsChar).elem '\n') else true)
          && isCollapsed rest) := rfl

/-- `takeWhile` passes over a fully satisfying prefix. -/
theorem takeWhile_append_all (p : Char → Bool) (a b : List Char)
    (h : ∀ x ∈ a, p x = true) :
    (a ++ b).takeWhile p = a ++ b.takeWhile p := by
  rw [List.takeWhile_append, if_pos]
  rw [List.takeWhile_eq_self_iff.mpr h]

/-- The output of the collapsing pass contains no blank-line run. -/
theorem isCollapsed_collapseChars :
    ∀ (n : Nat) (l : List Char), l.length ≤ n →
      isCollapsed (collapseChars l) = true := by
  intro n
  induction n with
  | zero =>
    intro l h
    have hl : l = [] := List.eq_nil_of_length_eq_zero (Nat.le_zero.mp h)
    subst hl
    rfl
  | succ m ih =>
    intro l hlen
    cases l with
    | nil => rfl
    | cons ch rest =>
      have hrlen : rest.length ≤ m := by simpa using hlen
      by_cases hc : ch = '\n'
      · subst hc
        cases hm : matchTail rest with
        | none =>
          rw [collapseChars_cons_nl_none rest hm, isCollapsed_cons,
            Bool.and_eq_true]
          refine ⟨?_, ih rest hrlen⟩
          rw [if_pos rfl]
          have hws : ∀ x ∈ rest.takeWhile isWsChar, x ≠ '\n' := by
            intro x hx hxnl
            subst hxnl
            unfold matchTail at hm
            rw [if_pos (by simpa using hx)] at hm
            cases hm
          have hsplit : rest = rest.takeWhile isWsChar ++ rest.dropWhile isWsChar :=
            (List.takeWhile_append_dropWhile isWsChar rest).symm
          have hpass : collapseChars rest
              = rest.takeWhile isWsChar ++ collapseChars (rest.dropWhile isWsChar) := by
            conv_lhs => rw [hsplit]
            exact collapseChars_append_no_nl _ _ hws
          rw [hpass, takeWhile_append_all isWsChar _ _
            (fun x hx => List.mem_takeWhile_imp hx)]
          have hdrop : (collapseChars (rest.dropWhile isWsChar)).takeWhile isWsChar
              = [] := by
            apply takeWhile_nil_of_head
            intro c' hc'
            rw [collapseChars_head?] at hc'
            exact dropWhile_head?_neg isWsChar rest c' hc'
          rw [hdrop, List.append_nil]
          simp only [Bool.not_eq_true']
          exact (Bool.eq_false_iff).mpr
            (fun hmem => hws '\n' (by simpa using hmem) rfl)
        | some r₂ =>
          rw [collapseChars_cons_nl_some rest r₂ hm, isCollapsed_cons,
            Bool.and_eq_true]
          have hlt := matchTail_length rest r₂ hm
          refine ⟨?_, ih r₂ (by omega)⟩
          rw [if_pos rfl]
          unfold matchTail at hm
          split at hm
          · next helem =>
            cases hm
            have hb : ∀ x ∈ afterLastNl (rest.takeWhile isWsChar),
                isWsChar x = true ∧ x ≠ '\n' := by
              intro x hx
              obtain ⟨hmem, hnl⟩ := afterLastNl_mem _ x hx
              exact ⟨List.mem_takeWhile_imp hmem, hnl⟩
            have hpass : collapseChars
                (afterLastNl (rest.takeWhile isWsChar) ++ rest.dropWhile isWsChar)
                = afterLastNl (rest.takeWhile isWsChar)
                  ++ collapseChars (rest.dropWhile isWsChar) :=
              collapseChars_append_no_nl _ _ (fun x hx => (hb x hx).2)
            rw [hpass, takeWhile_append_all isWsChar _ _
              (fun x hx => (hb x hx).1)]
            have hdrop : (collapseChars (rest.dropWhile isWsChar)).takeWhile isWsChar
                = [] := by
              apply takeWhile_nil_of_head
              intro c' hc'
              rw [collapseChars_head?] at hc'
              exact dropWhile_head?_neg isWsChar rest c' hc'
            rw [hdrop, List.append_nil]
            simp only [Bool.not_eq_true']
            exact (Bool.eq_false_iff).mpr
              (fun hmem => (hb '\n' (by simpa using hmem)).2 rfl)
          · cases hm
      · rw [collapseChars_cons_not_nl ch rest hc, isCollapsed_cons,
          Bool.and_eq_true]
        exact ⟨by rw [if_neg hc], ih rest hrlen⟩

/-- The collapsing pass fixes already-collapsed strings. -/
theorem collapseChars_of_isCollapsed :
    ∀ l : List Char, isCollapsed l = true → collapseChars l = l := by
  intro l
  induction l with
  | nil => intro _; rfl
  | cons c rest ih =>
    intro h
    rw [isCollapsed_cons, Bool.and_eq_true] at h
    by_cases hc : c = '\n'
    · subst hc
      have hm : matchTail rest = none := by
        unfold matchTail
        rw [if_neg ?hne]
        case hne =>
          have := h.1
          rw [if_pos rfl] at this
          simpa using this
      rw [collapseChars_cons_nl_none rest hm, ih h.2]
    · rw [collapseChars_cons_not_nl c rest hc, ih h.2]

/-- The collapsing pass is idempotent. -/
theorem collapseChars_idem (l : List Char) :
    collapseChars (collapseChars l) = collapseChars l :=
  collapseChars_of_isCollapsed _
    (isCollapsed_collapseChars l.length l (Nat.le_refl _))

/-- `dropWhile` fixes lists whose head fails the predicate. -/
theorem dropWhile_eq_self_of_head (p : Char → Bool) (l : List Char)
    (h : ∀ c, l.head? = some c → p c = false) : l.dropWhile p = l := by
  cases l with
  | nil => rfl
  | cons c cs => rw [List.dropWhile_cons, if_neg (by simp [h c rfl])]

/-- Trimming fixes strings guarded by non-whitespace on both ends. -/
theorem trimChars_of_good (l : List Char) (h : goodText l = true) :
    trimChars l = l := by
  obtain ⟨c, hc, hcw⟩ := goodText_head l h
  obtain ⟨k, hk, hkw⟩ := goodText_getLast l h
  unfold trimChars
  rw [dropWhile_eq_self_of_head isWsChar l
    (fun c' hc' => by rw [hc] at hc'; cases hc'; exact hcw)]
  rw [dropWhile_eq_self_of_head isWsChar l.reverse
    (fun c' hc' => by
      rw [List.head?_reverse, hk] at hc'
      cases hc'
      exact hkw)]
  exact List.reverse_reverse l

/-- The collapsing pass preserves goodness. -/
theorem goodText_collapseChars (t : List Char) (h : goodText t = true) :
    goodText (collapseChars t) = true := by
  obtain ⟨c, hc, hcw⟩ := goodText_head t h
  obtain ⟨k, hk, hkw⟩ := goodText_getLast t h
  have hlast := collapseChars_getLast t.length t (Nat.le_refl _) k hk hkw
  refine goodText_intro _ c k ?_ hcw hlast.2 hkw
  rw [collapseChars_head?]
  exact hc

/-- `normalizeNewlines` over a single-line-break join of good chunks
collapses each chunk and keeps the single separators. -/
theorem normalize_intercalate (ts : List (List Char)) (hne : ts ≠ [])
    (h : ∀ t ∈ ts, goodText t = true) :
    normalizeNewlines (List.intercalate ['\n'] ts)
      = List.intercalate ['\n'] (ts.map collapseChars) := by
  unfold normalizeNewlines
  rw [collapse_intercalate ts h]
  apply trimChars_of_good
  apply intercalate_good
  · simpa using hne
  · intro t ht
    rw [List.mem_map] at ht
    obtain ⟨t', ht', rfl⟩ := ht
    exact goodText_collapseChars t' (h t' ht')

/-! ## The reparse layout matches the regenerated text -/

/-- Appending ranges of consecutive integers. -/
theorem range'_append_one :
    ∀ (m s n : Nat), List.range' s m ++ List.range' (s + m) n
      = List.range' s (m + n) := by
  intro m
  induction m with
  | zero =>
    intro s n
    simp
  | succ k ih =>
    intro s n
    show s :: (List.range' (s + 1) k ++ List.range' (s + (k + 1)) n)
      = List.range' s (k + 1 + n)
    have h1 : s + (k + 1) = (s + 1) + k := by omega
    have h2 : k + 1 + n = (k + n) + 1 := by omega
    rw [h1, ih (s + 1) n, h2]
    rfl

/-- Slicing out the middle of a three-part concatenation. -/
theorem slice_middle (P m s : List Char) :
    sliceChars (P ++ m ++ s) P.length (P.length + m.length) = m := by
  unfold sliceChars
  rw [List.append_assoc, List.drop_left]
  have h : P.length + m.length - P.length = m.length := by omega
  rw [h, List.take_left]

/-- `intercalate` over a cons with nonempty tail. -/
theorem intercalate_cons_ne (sep : List Char) (a : List Char)
    (l : List (List Char)) (h : l ≠ []) :
    List.intercalate sep (a :: l) = a ++ sep ++ List.intercalate sep l := by
  cases l with
  | nil => exact absurd rfl h
  | cons b m => exact intercalate_cons₂ sep a b m

/-- A block's layout has one node per item. -/
theorem layoutGroup_length :
    ∀ (items : List Item) (p : Nat), (layoutGroup p items).length = items.length := by
  intro items
  induction items with
  | nil => intro p; rfl
  | cons a rest ih =>
    intro p
    show (layoutGroup p (a :: rest)).length = rest.length + 1
    rw [layoutGroup]
    simp [ih]

/-- Every laid-out node carries the statement of one of the items. -/
theorem layoutGroup_stmts :
    ∀ (items : List Item) (p : Nat) (n : Node), n ∈ layoutGroup p items →
      ∃ a ∈ items, n.stmt = a.node.stmt := by
  intro items
  induction items with
  | nil => intro p n hn; cases hn
  | cons a rest ih =>
    intro p n hn
    rw [layoutGroup] at hn
    rcases List.mem_cons.mp hn with h | h
    · exact ⟨a, List.mem_cons_self _ _, by rw [h]⟩
    · obtain ⟨b, hb, hbs⟩ := ih _ n h
      exact ⟨b, List.mem_cons_of_mem _ hb, hbs⟩

/-- Every laid-out node of a block sequence carries an item's statement. -/
theorem layoutGroups_stmts :
    ∀ (nested : List (List Item)) (p : Nat) (n : Node),
      n ∈ layoutGroups p nested →
      ∃ g ∈ nested, ∃ a ∈ g, n.stmt = a.node.stmt := by
  intro nested
  induction nested with
  | nil => intro p n hn; cases hn
  | cons g gs ih =>
    intro p n hn
    rw [layoutGroups] at hn
    rcases List.mem_append.mp hn with h | h
    · obtain ⟨a, ha, has⟩ := layoutGroup_stmts g p n h
      exact ⟨g, List.mem_cons_self _ _, a, ha, has⟩
    · obtain ⟨g', hg', a, ha, has⟩ := ih _ n h
      exact ⟨g', List.mem_cons_of_mem _ hg', a, ha, has⟩

/-- Building one statement's item from its slice of the regenerated text. -/
theorem createNode_eq_rebuilt (so : List String) (lo : List (String × Nat))
    (R : List Char) (i p : Nat) (a : Item)
    (h : sliceChars R p (p + (collapseChars a.text).length)
      = collapseChars a.text) :
    createNodeWithSection so lo R i
        ⟨p, p + (collapseChars a.text).length, a.node.stmt⟩
      = rebuilt so lo i p a := by
  unfold createNodeWithSection rebuilt
  rw [h]

/-- The second pass builds exactly the `rebuildList` items for one block. -/
theorem layoutGroup_build (so : List String) (lo : List (String × Nat)) :
    ∀ (items : List Item) (P tail R : List Char) (i₀ : Nat),
      R = P ++ List.intercalate ['\n']
          (items.map (fun it => collapseChars it.text)) ++ tail →
      ((layoutGroup P.length items).enumFrom i₀).map
          (fun q => createNodeWithSection so lo R q.1 q.2)
        = rebuildList so lo i₀ P.length items := by
  intro items
  induction items with
  | nil => intro P tail R i₀ _; rfl
  | cons a rest ih =>
    intro P tail R i₀ hR
    rw [layoutGroup]
    show createNodeWithSection so lo R i₀
          ⟨P.length, P.length + (collapseChars a.text).length, a.node.stmt⟩
        :: ((layoutGroup (P.length + (collapseChars a.text).length + 1)
              rest).enumFrom (i₀ + 1)).map
            (fun q => createNodeWithSection so lo R q.1 q.2)
      = rebuilt so lo i₀ P.length a
        :: rebuildList so lo (i₀ + 1)
            (P.length + (collapseChars a.text).length + 1) rest
    cases rest with
    | nil =>
      have hR' : R = P ++ collapseChars a.text ++ tail := by
        rw [hR, List.map_cons, List.map_nil, intercalate_single]
      refine congrArg₂ _ ?_ rfl
      exact createNode_eq_rebuilt so lo R i₀ P.length a
        (by rw [hR', slice_middle])
    | cons b rest' =>
      have hR' : R = P ++ collapseChars a.text
          ++ ('\n' :: List.intercalate ['\n']
              ((b :: rest').map (fun it => collapseChars it.text)) ++ tail) := by
        rw [hR, List.map_cons, intercalate_cons_ne _ _ _ (by simp)]
        simp [List.append_assoc]
      have hhead := createNode_eq_rebuilt so lo R i₀ P.length a
        (by rw [hR', slice_middle])
      have hP' : (P ++ collapseChars a.text ++ ['\n']).length
          = P.length + (collapseChars a.text).length + 1 := by
        simp only [List.length_append, List.length_singleton]
      have htail : R = (P ++ collapseChars a.text ++ ['\n'])
          ++ List.intercalate ['\n']
              ((b :: rest').map (fun it => collapseChars it.text)) ++ tail := by
        rw [hR']
        simp [List.append_assoc]
      have hrec := ih (P ++ collapseChars a.text ++ ['\n']) tail R (i₀ + 1) htail
      rw [hP'] at hrec
      exact congrArg₂ _ hhead hrec

/-- The second pass builds exactly the `rebuildGroups` items. -/
theorem layoutGroups_build (so : List String) (lo : List (String × Nat)) :
    ∀ (nested : List (List Item)) (P tail R : List Char) (i₀ : Nat),
      R = P ++ List.intercalate ['\n', '\n']
          (nested.map (fun g =>
            List.intercalate ['\n'] (g.map (fun it => collapseChars it.text))))
          ++ tail →
      ((layoutGroups P.length nested).enumFrom i₀).map
          (fun q => createNodeWithSection so lo R q.1 q.2)
        = rebuildGroups so lo i₀ P.length nested := by
  intro nested
  induction nested with
  | nil => intro P tail R i₀ _; rfl
  | cons g gs ih =>
    intro P tail R i₀ hR
    rw [layoutGroups, List.enumFrom_append, List.map_append,
      layoutGroup_length]
    show _ ++ _ = rebuildList so lo i₀ P.length g
      ++ rebuildGroups so lo (i₀ + g.length)
          (P.length + groupRenderLen g + 2) gs
    cases gs with
    | nil =>
      have hR' : R = P ++ List.intercalate ['\n']
          (g.map (fun it => collapseChars it.text)) ++ tail := by
        rw [hR, List.map_cons, List.map_nil, intercalate_single]
      rw [layoutGroup_build so lo g P tail R i₀ hR']
      rfl
    | cons g' gs' =>
      have hR' : R = P ++ List.intercalate ['\n']
            (g.map (fun it => collapseChars it.text))
          ++ ('\n' :: '\n' :: List.intercalate ['\n', '\n']
              ((g' :: gs').map (fun h =>
                List.intercalate ['\n'] (h.map (fun it => collapseChars it.text))))
            ++ tail) := by
        rw [hR, List.map_cons, intercalate_cons_ne _ _ _ (by simp)]
        simp [List.append_assoc]
      have h1 := layoutGroup_build so lo g P
        ('\n' :: '\n' :: List.intercalate ['\n', '\n']
            ((g' :: gs').map (fun h =>
              List.intercalate ['\n'] (h.map (fun it => collapseChars it.text))))
          ++ tail) R i₀ hR'
      have hP' : (P ++ List.intercalate ['\n']
          (g.map (fun it => collapseChars it.text)) ++ ['\n', '\n']).length
          = P.length + groupRenderLen g + 2 := by
        simp only [groupRenderLen, List.length_append, List.length_cons,
          List.length_nil]
      have htail : R = (P ++ List.intercalate ['\n']
            (g.map (fun it => collapseChars it.text)) ++ ['\n', '\n'])
          ++ List.intercalate ['\n', '\n']
              ((g' :: gs').map (fun h =>
                List.intercalate ['\n'] (h.map (fun it => collapseChars it.text))))
          ++ tail := by
        rw [hR']
        simp [List.append_assoc]
      have h2 := ih (P ++ List.intercalate ['\n']
          (g.map (fun it => collapseChars it.text)) ++ ['\n', '\n']) tail R
        (i₀ + g.length) htail
      rw [hP'] at h2
      exact congrArg₂ _ h1 h2

/-! ## Properties of the rebuilt item lists -/

/-- Rebuilt items relate to their originals. -/
theorem rebuildList_rel (so : List String) (lo : List (String × Nat)) :
    ∀ (items : List Item) (i p : Nat), (∀ a ∈ items, wfItem so lo a) →
      List.Forall₂ relFull items (rebuildList so lo i p items) := by
  intro items
  induction items with
  | nil => intro i p _; exact List.Forall₂.nil
  | cons a rest ih =>
    intro i p hwf
    refine List.Forall₂.cons ?_ (ih _ _ (fun b hb => hwf b (List.mem_cons_of_mem _ hb)))
    obtain ⟨h1, h2, h3⟩ := hwf a (List.mem_cons_self _ _)
    exact ⟨rfl, h1.symm, h2.symm, h3.symm, rfl⟩

/-- Rebuilt block sequences relate to their originals. -/
theorem rebuildGroups_rel (so : List String) (lo : List (String × Nat)) :
    ∀ (nested : List (List Item)) (i p : Nat),
      (∀ g ∈ nested, ∀ a ∈ g, wfItem so lo a) →
      List.Forall₂ relFull nested.flatten (rebuildGroups so lo i p nested) := by
  intro nested
  induction nested with
  | nil => intro i p _; exact List.Forall₂.nil
  | cons g gs ih =>
    intro i p hwf
    exact List.rel_append
      (rebuildList_rel so lo g i p (hwf g (List.mem_cons_self _ _)))
      (ih _ _ (fun g' hg' => hwf g' (List.mem_cons_of_mem _ hg')))

/-- The rebuilt items carry consecutive indices. -/
theorem rebuildList_indices (so : List String) (lo : List (String × Nat)) :
    ∀ (items : List Item) (i p : Nat),
      (rebuildList so lo i p items).map Item.index
        = List.range' i items.length := by
  intro items
  induction items with
  | nil => intro i p; rfl
  | cons a rest ih =>
    intro i p
    show i :: (rebuildList so lo (i + 1) _ rest).map Item.index
      = List.range' i (rest.length + 1)
    rw [ih]
    rfl

/-- The rebuilt block sequence carries consecutive indices. -/
theorem rebuildGroups_indices (so : List String) (lo : List (String × Nat)) :
    ∀ (nested : List (List Item)) (i p : Nat),
      (rebuildGroups so lo i p nested).map Item.index
        = List.range' i (nested.map List.length).sum := by
  intro nested
  induction nested with
  | nil => intro i p; rfl
  | cons g gs ih =>
    intro i p
    show ((rebuildList so lo i p g)
        ++ rebuildGroups so lo (i + g.length) _ gs).map Item.index = _
    rw [List.map_append, rebuildList_indices, ih,
      range'_append_one g.length i ((gs.map List.length).sum)]
    rfl

/-- The rebuilt items are chained by strictly increasing index. -/
theorem rebuildGroups_chain_lt (so : List String) (lo : List (String × Nat))
    (nested : List (List Item)) (i p : Nat) :
    (rebuildGroups so lo i p nested).Chain'
      (fun x y => x.index < y.index) := by
  have h := rebuildGroups_indices so lo nested i p
  have hp : ((rebuildGroups so lo i p nested).map Item.index).Chain' (· < ·) := by
    rw [h]
    exact (List.pairwise_lt_range' _ _).chain'
  exact (List.chain'_map Item.index).mp hp

/-- Transfer of one comparator verdict from first-pass to second-pass
items. -/
theorem nodeLe_transfer (a a' b b' : Item)
    (hab : relFull a b) (hab' : relFull a' b')
    (hle : nodeLe a a' = true) (hidx : b.index < b'.index) :
    nodeLe b b' = true := by
  obtain ⟨-, hsec, hsi, hlsi, -⟩ := hab
  obtain ⟨-, hsec', hsi', hlsi', -⟩ := hab'
  by_cases hlt : a.sortIndex < a'.sortIndex
  · exact nodeLe_of_sortIndex_lt b b' (by rw [hsi, hsi']; exact hlt)
  · have heq : a.sortIndex = a'.sortIndex := by
      have := nodeLe_sortIndex_le a a' hle
      omega
    have heqb : b.sortIndex = b'.sortIndex := by rw [hsi, hsi', heq]
    by_cases hlife : a.sectionName = some ("lifecycle")
        ∧ a'.sectionName = some ("lifecycle")
    · have e := (nodeLe_eq_life a a' heq hlife.1 hlife.2).mp hle
      refine (nodeLe_eq_life b b' heqb (by rw [hsec]; exact hlife.1)
        (by rw [hsec']; exact hlife.2)).mpr ?_
      rcases e with h | ⟨h, -⟩
      · exact Or.inl (by rw [hlsi, hlsi']; exact h)
      · exact Or.inr ⟨by rw [hlsi, hlsi']; exact h, Nat.le_of_lt hidx⟩
    · have hnl : ¬ (b.sectionName = some ("lifecycle")
          ∧ b'.sectionName = some ("lifecycle")) := by
        rw [hsec, hsec']
        exact hlife
      exact (nodeLe_eq_nonlife b b' heqb hnl).mpr (Nat.le_of_lt hidx)

/-- Chained comparator verdicts transfer along `relFull` to any list with
strictly increasing indices. -/
theorem chain'_transfer :
    ∀ (l₁ l₂ : List Item), List.Forall₂ relFull l₁ l₂ →
      l₁.Chain' (fun a b => nodeLe a b = true) →
      l₂.Chain' (fun x y => x.index < y.index) →
      l₂.Chain' (fun a b => nodeLe a b = true) := by
  intro l₁ l₂ hf
  induction hf with
  | nil => intro _ _; exact List.chain'_nil
  | @cons a b l₁' l₂' hab hrest ih =>
    intro hch hidx
    cases hrest with
    | nil => exact List.chain'_singleton b
    | @cons a' b' l₁'' l₂'' hab' hrest' =>
      rw [List.chain'_cons] at hch hidx ⊢
      refine ⟨nodeLe_transfer a a' b b' hab hab' hch.1 hidx.1, ?_⟩
      exact ih hch.2 hidx.2

/-! ## Grouping and rendering congruence -/

/-- Pointwise texts of a `relSec`-related list. -/
theorem forall₂_texts :
    ∀ (l₁ l₂ : List Item), List.Forall₂ relSec l₁ l₂ →
      l₂.map Item.text = l₁.map (fun it => collapseChars it.text) := by
  intro l₁ l₂ h
  induction h with
  | nil => rfl
  | cons hab _ ih =>
    rw [List.map_cons, List.map_cons, hab.2, ih]

/-- The grouping loop chunks `relSec`-related lists identically; the
second list's chunked texts are the collapsed texts of the first. -/
theorem groupNodesGo_texts :
    ∀ (rest₁ rest₂ : List Item), List.Forall₂ relSec rest₁ rest₂ →
      ∀ (cur₁ cur₂ : List Item), List.Forall₂ relSec cur₁ cur₂ →
        ∀ (curName : Option String) (rs₁ re₁ rs₂ re₂ : Nat),
          (groupNodesGo curName cur₂ rs₂ re₂ rest₂).map
              (fun g => g.items.map Item.text)
            = (groupNodesGo curName cur₁ rs₁ re₁ rest₁).map
                (fun g => g.items.map (fun it => collapseChars it.text)) := by
  intro rest₁ rest₂ h
  induction h with
  | nil =>
    intro cur₁ cur₂ hcur curName rs₁ re₁ rs₂ re₂
    rw [groupNodesGo, groupNodesGo]
    simp only [List.map_cons, List.map_nil]
    rw [forall₂_texts cur₁ cur₂ hcur]
  | @cons a b rest₁' rest₂' hab hrest ih =>
    intro cur₁ cur₂ hcur curName rs₁ re₁ rs₂ re₂
    rw [groupNodesGo, groupNodesGo, hab.1]
    by_cases hsame : groupNameOpt a.sectionName = curName
    · rw [if_pos hsame, if_pos hsame]
      exact ih (cur₁ ++ [a]) (cur₂ ++ [b])
        (List.rel_append hcur (List.Forall₂.cons hab List.Forall₂.nil))
        curName rs₁ a.node.range1 rs₂ b.node.range1
    · rw [if_neg hsame, if_neg hsame]
      simp only [List.map_cons]
      rw [forall₂_texts cur₁ cur₂ hcur,
        ih [a] [b] (List.Forall₂.cons hab List.Forall₂.nil) _
          a.node.range0 a.node.range1 b.node.range0 b.node.range1]

/-- `groupNodes` chunks `relSec`-related lists identically. -/
theorem groupNodes_texts (l₁ l₂ : List Item)
    (h : List.Forall₂ relSec l₁ l₂) :
    (groupNodes l₂).map (fun g => g.items.map Item.text)
      = (groupNodes l₁).map
          (fun g => g.items.map (fun it => collapseChars it.text)) := by
  cases h with
  | nil => rfl
  | @cons a b l₁' l₂' hab hrest =>
    rw [groupNodes, groupNodes, hab.1]
    exact groupNodesGo_texts l₁' l₂' hrest [a] [b]
      (List.Forall₂.cons hab List.Forall₂.nil) _
      a.node.range0 a.node.range1 b.node.range0 b.node.range1

/-- `generateSortedText` factors through the groups' text lists. -/
theorem generateSortedText_eq (gs : List Group) :
    generateSortedText gs
      = List.intercalate ['\n', '\n']
          ((gs.map (fun g => g.items.map Item.text)).map
            (fun ts => normalizeNewlines (List.intercalate ['\n'] ts))) := by
  unfold generateSortedText getGroupText
  rw [List.map_map]
  rfl

/-! ## Positions of the reparsed statements -/

/-- `getLast?` of an append with nonempty second part, in any type. -/
theorem getLast?_append_ne' {α : Type} (a b : List α) (hb : b ≠ []) :
    (a ++ b).getLast? = b.getLast? := by
  rw [List.getLast?_append]
  cases hl : b.getLast? with
  | none => exact absurd (List.getLast?_eq_none_iff.mp hl) hb
  | some x => rfl

/-- `getLast?` ignores the head when the tail is nonempty, in any type. -/
theorem getLast?_cons_ne' {α : Type} (c : α) (l : List α) (h : l ≠ []) :
    (c :: l).getLast? = l.getLast? := by
  cases l with
  | nil => exact absurd rfl h
  | cons d ds => rfl

/-- The layout of a nonempty block is nonempty. -/
theorem layoutGroup_ne_nil (items : List Item) (p : Nat) (h : items ≠ []) :
    layoutGroup p items ≠ [] := by
  intro hh
  have := layoutGroup_length items p
  rw [hh] at this
  exact h (List.eq_nil_of_length_eq_zero this.symm)

/-- The first reparsed statement of a nonempty block starts at the block's
offset. -/
theorem layoutGroup_head_range0 (items : List Item) (p : Nat)
    (h : items ≠ []) :
    (layoutGroup p items).head?.map Node.range0 = some p := by
  cases items with
  | nil => exact absurd rfl h
  | cons a rest => rfl

/-- The last reparsed statement of a nonempty block ends at the block's
offset plus its rendered length. -/
theorem layoutGroup_getLast_range1 :
    ∀ (items : List Item) (p : Nat), items ≠ [] →
      (layoutGroup p items).getLast?.map Node.range1
        = some (p + groupRenderLen items) := by
  intro items
  induction items with
  | nil => intro p h; exact absurd rfl h
  | cons a rest ih =>
    intro p _
    cases hrest : rest with
    | nil =>
      subst hrest
      show some (p + (collapseChars a.text).length) = some (p + groupRenderLen [a])
      rw [show groupRenderLen [a] = (collapseChars a.text).length by
        unfold groupRenderLen
        rw [List.map_cons, List.map_nil, intercalate_single]]
    | cons b rest' =>
      subst hrest
      rw [layoutGroup,
        getLast?_cons_ne' _ _ (layoutGroup_ne_nil _ _ (by simp)),
        ih _ (by simp)]
      have hglen : groupRenderLen (a :: b :: rest')
          = (collapseChars a.text).length + 1 + groupRenderLen (b :: rest') := by
        unfold groupRenderLen
        rw [List.map_cons, intercalate_cons_ne _ _ _ (by simp)]
        simp
        omega
      rw [hglen]
      have : p + (collapseChars a.text).length + 1 + groupRenderLen (b :: rest')
          = p + ((collapseChars a.text).length + 1 + groupRenderLen (b :: rest')) := by
        omega
      rw [← this]

/-- Total length of a laid-out block sequence. -/
theorem layoutGroups_length :
    ∀ (nested : List (List Item)) (p : Nat),
      (layoutGroups p nested).length = (nested.map List.length).sum := by
  intro nested
  induction nested with
  | nil => intro p; rfl
  | cons g gs ih =>
    intro p
    rw [layoutGroups, List.length_append, layoutGroup_length, ih]
    rfl

/-- The layout of a block sequence whose blocks are nonempty is nonempty. -/
theorem layoutGroups_ne_nil (nested : List (List Item)) (p : Nat)
    (hne : nested ≠ []) (hall : ∀ g ∈ nested, g ≠ []) :
    layoutGroups p nested ≠ [] := by
  cases nested with
  | nil => exact absurd rfl hne
  | cons g gs =>
    rw [layoutGroups]
    intro hh
    rcases List.append_eq_nil.mp hh with ⟨h1, -⟩
    exact layoutGroup_ne_nil g p (hall g (List.mem_cons_self _ _)) h1

/-- The first reparsed statement overall starts at the given offset. -/
theorem layoutGroups_head_range0 (nested : List (List Item)) (p : Nat)
    (hne : nested ≠ []) (hall : ∀ g ∈ nested, g ≠ []) :
    (layoutGroups p nested).head?.map Node.range0 = some p := by
  cases nested with
  | nil => exact absurd rfl hne
  | cons g gs =>
    rw [layoutGroups, List.head?_append]
    have h := layoutGroup_head_range0 g p (hall g (List.mem_cons_self _ _))
    cases hh : (layoutGroup p g).head? with
    | none =>
      rw [hh] at h
      cases h
    | some n =>
      rw [hh] at h
      simpa using h

/-- The last reparsed statement ends at the offset plus the full rendered
length. -/
theorem layoutGroups_getLast_range1 :
    ∀ (nested : List (List Item)) (p : Nat), nested ≠ [] →
      (∀ g ∈ nested, g ≠ []) →
      (layoutGroups p nested).getLast?.map Node.range1
        = some (p + (List.intercalate ['\n', '\n']
            (nested.map (fun g =>
              List.intercalate ['\n'] (g.map (fun it => collapseChars it.text))))).length) := by
  intro nested
  induction nested with
  | nil => intro p h; exact absurd rfl h
  | cons g gs ih =>
    intro p _ hall
    cases hgs : gs with
    | nil =>
      subst hgs
      rw [layoutGroups, layoutGroups, List.append_nil,
        layoutGroup_getLast_range1 g p (hall g (List.mem_cons_self _ _))]
      rw [List.map_cons, List.map_nil, intercalate_single]
      rfl
    | cons g' gs' =>
      subst hgs
      rw [layoutGroups,
        getLast?_append_ne' _ _
          (layoutGroups_ne_nil _ _ (by simp)
            (fun h hh => hall h (List.mem_cons_of_mem _ hh))),
        ih _ (by simp) (fun h hh => hall h (List.mem_cons_of_mem _ hh))]
      have hlen : (List.intercalate ['\n', '\n']
            ((g :: g' :: gs').map (fun h =>
              List.intercalate ['\n'] (h.map (fun it => collapseChars it.text))))).length
          = (List.intercalate ['\n'] (g.map (fun it => collapseChars it.text))).length
            + 2
            + (List.intercalate ['\n', '\n']
                ((g' :: gs').map (fun h =>
                  List.intercalate ['\n'] (h.map (fun it => collapseChars it.text))))).length := by
        rw [show (g :: g' :: gs').map (fun h =>
              List.intercalate ['\n'] (h.map (fun it => collapseChars it.text)))
            = List.intercalate ['\n'] (g.map (fun it => collapseChars it.text))
              :: (g' :: gs').map (fun h =>
                List.intercalate ['\n'] (h.map (fun it => collapseChars it.text))) from rfl]
        rw [intercalate_cons_ne _ _ _ (by simp)]
        simp only [List.length_append, List.length_cons, List.length_nil]
      rw [hlen]
      unfold groupRenderLen
      congr 1
      omega

/-- Slicing the whole buffer. -/
theorem slice_full (R : List Char) : sliceChars R 0 R.length = R := by
  unfold sliceChars
  rw [List.drop_zero, Nat.sub_zero, List.take_length]

/-! ## Assembling the second pass -/

/-- `groupNodes` partitions its input in order (helper form). -/
theorem groupNodes_flatten (l : List Item) :
    ((groupNodes l).map Group.items).flatten = l := by
  cases l with
  | nil => rfl
  | cons x xs =>
    exact (groupNodesGo_spec xs (groupNameOpt x.sectionName) [x]
      x.node.range0 x.node.range1 (by simp) (by simp)).1

/-- Every block produced by `groupNodes` is nonempty (helper form). -/
theorem groupNodes_nonempty (l : List Item) :
    ∀ g ∈ groupNodes l, g.items ≠ [] := by
  cases l with
  | nil => intro g hg; cases hg
  | cons x xs =>
    intro g hg
    exact ((groupNodesGo_spec xs (groupNameOpt x.sectionName) [x]
      x.node.range0 x.node.range1 (by simp) (by simp)).2.1 g hg).1

/-- Every first-pass item is well-formed for its configuration. -/
theorem wf_buildItems (so : List String) (lo : List (String × Nat))
    (source : List Char) (nodes : List Node) :
    ∀ it ∈ buildItems so lo source nodes, wfItem so lo it := by
  intro it hit
  rw [buildItems, List.mem_map] at hit
  obtain ⟨p, -, rfl⟩ := hit
  exact ⟨rfl, rfl, rfl⟩

/-- The statement carried by a first-pass item is one of the input nodes'. -/
theorem buildItems_node_mem (so : List String) (lo : List (String × Nat))
    (source : List Char) (nodes : List Node) :
    ∀ it ∈ buildItems so lo source nodes, it.node ∈ nodes := by
  intro it hit
  rw [buildItems, List.mem_map] at hit
  obtain ⟨p, hp, rfl⟩ := hit
  exact List.snd_mem_of_mem_enum hp

/-- A first-pass item's text is the source slice over its node's range. -/
theorem buildItems_text (so : List String) (lo : List (String × Nat))
    (source : List Char) (nodes : List Node) :
    ∀ it ∈ buildItems so lo source nodes,
      it.text = sliceChars source it.node.range0 it.node.range1 := by
  intro it hit
  rw [buildItems, List.mem_map] at hit
  obtain ⟨p, -, rfl⟩ := hit
  rfl

/-- `generateSortedText` when every block is nonempty and every item's text
is guarded by non-whitespace on both ends: each block renders as its items'
collapsed texts joined by single line breaks. -/
theorem render_layout (gs : List Group)
    (hne : ∀ g ∈ gs, g.items ≠ [])
    (hgood : ∀ g ∈ gs, ∀ a ∈ g.items, goodText a.text = true) :
    generateSortedText gs
      = List.intercalate ['\n', '\n']
          ((gs.map Group.items).map (fun g =>
            List.intercalate ['\n'] (g.map (fun it => collapseChars it.text)))) := by
  rw [generateSortedText_eq, List.map_map, List.map_map]
  apply congrArg
  apply List.map_congr_left
  intro G hG
  show normalizeNewlines (List.intercalate ['\n'] (G.items.map Item.text))
    = List.intercalate ['\n'] (G.items.map (fun it => collapseChars it.text))
  have hts : ∀ t ∈ G.items.map Item.text, goodText t = true := by
    intro t ht
    rw [List.mem_map] at ht
    obtain ⟨a, ha, rfl⟩ := ht
    exact hgood G hG a ha
  rw [normalize_intercalate (G.items.map Item.text)
    (by simpa using hne G hG) hts, List.map_map]
  rfl

/-- Rendering a list of already-collapsed good texts is the identity on each
block. -/
theorem normalize_collapsed_block (g : List Item)
    (hne : g ≠ []) (hgood : ∀ a ∈ g, goodText a.text = true) :
    normalizeNewlines (List.intercalate ['\n']
        (g.map (fun it => collapseChars it.text)))
      = List.intercalate ['\n'] (g.map (fun it => collapseChars it.text)) := by
  have hts : ∀ t ∈ g.map (fun it => collapseChars it.text), goodText t = true := by
    intro t ht
    rw [List.mem_map] at ht
    obtain ⟨a, ha, rfl⟩ := ht
    exact goodText_collapseChars _ (hgood a ha)
  rw [normalize_intercalate (g.map (fun it => collapseChars it.text))
    (by simpa using hne) hts]
  apply congrArg
  rw [List.map_map]
  apply List.map_congr_left
  intro a _
  show collapseChars (collapseChars a.text) = collapseChars a.text
  exact collapseChars_idem a.text

/-- Claim C9: for every statement sequence whose surviving statements are
nonempty and whose source slices start and end in non-whitespace, running
the pipeline (classify, sort, group, render) on the parsed result of its own
rendered output yields the same rendered text, and the rule's pass over that
output produces no edit.  The parse of the rendered output is `reparse`,
modelled from the spec (§6). -/
theorem c9_idempotent (so : List String) (lo : List (String × Nat))
    (source : List Char) (body : List Node)
    (hne : survivors body ≠ [])
    (hgood : ∀ n ∈ survivors body,
      goodText (sliceChars source n.range0 n.range1) = true) :
    generateSortedText
        (pipelineGroups so lo
          (generateSortedText (pipelineGroups so lo source (survivors body)))
          (survivors (reparse (pipelineGroups so lo source (survivors body)))))
      = generateSortedText (pipelineGroups so lo source (survivors body))
    ∧ programExit so lo
        (generateSortedText (pipelineGroups so lo source (survivors body)))
        (reparse (pipelineGroups so lo source (survivors body)))
      = none := by
  have hpipe : pipelineGroups so lo source (survivors body)
      = groupNodes (sortNodes (buildItems so lo source (survivors body))) := rfl
  rw [hpipe]
  set n₁ := survivors body with hn₁
  set I₁ := buildItems so lo source n₁ with hI₁
  set S₁ := sortNodes I₁ with hS₁def
  set G₁ := groupNodes S₁ with hG₁def
  set N := G₁.map Group.items with hNdef
  set R := generateSortedText G₁ with hRdef
  have hI₁wf : ∀ it ∈ I₁, wfItem so lo it := by
    rw [hI₁]
    exact wf_buildItems so lo source n₁
  have hI₁good : ∀ it ∈ I₁, goodText it.text = true := by
    intro it hit
    rw [hI₁] at hit
    rw [buildItems_text so lo source n₁ it hit]
    exact hgood it.node (buildItems_node_mem so lo source n₁ it hit)
  have hI₁nimp : ∀ it ∈ I₁, (!(isImportStmt it.node.stmt)) = true := by
    intro it hit
    rw [hI₁] at hit
    have hmem := buildItems_node_mem so lo source n₁ it hit
    rw [hn₁] at hmem
    unfold survivors at hmem
    exact (List.mem_filter.mp hmem).2
  have hSperm : S₁.Perm I₁ := by
    rw [hS₁def]
    exact insertionSort_perm nodeLe I₁
  have hSwf : ∀ it ∈ S₁, wfItem so lo it :=
    fun it hit => hI₁wf it (hSperm.mem_iff.mp hit)
  have hSgood : ∀ it ∈ S₁, goodText it.text = true :=
    fun it hit => hI₁good it (hSperm.mem_iff.mp hit)
  have hSnimp : ∀ it ∈ S₁, (!(isImportStmt it.node.stmt)) = true :=
    fun it hit => hI₁nimp it (hSperm.mem_iff.mp hit)
  have hflat : N.flatten = S₁ := by
    rw [hNdef, hG₁def]
    exact groupNodes_flatten S₁
  have hGne : ∀ g ∈ G₁, g.items ≠ [] := by
    rw [hG₁def]
    exact groupNodes_nonempty S₁
  have hallne : ∀ g ∈ N, g ≠ [] := by
    intro g hg
    rw [hNdef, List.mem_map] at hg
    obtain ⟨G, hG, rfl⟩ := hg
    exact hGne G hG
  have hNwf : ∀ g ∈ N, ∀ a ∈ g, wfItem so lo a := by
    intro g hg a ha
    exact hSwf a (by rw [← hflat]; exact List.mem_flatten.mpr ⟨g, hg, ha⟩)
  have hNgood : ∀ g ∈ N, ∀ a ∈ g, goodText a.text = true := by
    intro g hg a ha
    exact hSgood a (by rw [← hflat]; exact List.mem_flatten.mpr ⟨g, hg, ha⟩)
  have hI₁ne : I₁ ≠ [] := by
    intro hnil
    apply hne
    apply List.eq_nil_of_length_eq_zero
    have hc := congrArg List.length hnil
    rw [hI₁, buildItems] at hc
    simpa using hc
  have hSne : S₁ ≠ [] := by
    intro hnil
    apply hI₁ne
    apply List.eq_nil_of_length_eq_zero
    rw [← hSperm.length_eq, hnil]
    rfl
  have hNne : N ≠ [] := by
    intro hnil
    apply hSne
    rw [← hflat, hnil]
    rfl
  have hrender : R = List.intercalate ['\n', '\n']
      (N.map (fun g => List.intercalate ['\n']
        (g.map (fun it => collapseChars it.text)))) := by
    rw [hRdef, hNdef]
    exact render_layout G₁ hGne
      (fun G hG a ha =>
        hNgood G.items (by rw [hNdef]; exact List.mem_map_of_mem _ hG) a ha)
  have hbuild : buildItems so lo R (reparse G₁) = rebuildGroups so lo 0 0 N := by
    have h := layoutGroups_build so lo N ([] : List Char) ([] : List Char) R 0
      (by rw [hrender]; simp)
    calc buildItems so lo R (reparse G₁)
        = ((layoutGroups 0 N).enumFrom 0).map
            (fun q => createNodeWithSection so lo R q.1 q.2) := by
          rw [buildItems, reparse, ← hNdef]
          rfl
      _ = rebuildGroups so lo 0 0 N := h
  set I₂ := rebuildGroups so lo 0 0 N with hI₂def
  have hrel : List.Forall₂ relFull S₁ I₂ := by
    rw [hI₂def, ← hflat]
    exact rebuildGroups_rel so lo N 0 0 hNwf
  have hchainS : S₁.Chain' (fun a b => nodeLe a b = true) := by
    rw [hS₁def]
    exact insertionSort_chain nodeLe nodeLe_total I₁
  have hchain₂ : I₂.Chain' (fun a b => nodeLe a b = true) :=
    chain'_transfer S₁ I₂ hrel hchainS
      (by rw [hI₂def]; exact rebuildGroups_chain_lt so lo N 0 0)
  have hsort₂ : sortNodes I₂ = I₂ := insertionSort_eq_of_chain nodeLe I₂ hchain₂
  have hsurv₂ : survivors (reparse G₁) = reparse G₁ := by
    show (reparse G₁).filter (fun n => !(isImportStmt n.stmt)) = reparse G₁
    apply List.filter_eq_self.mpr
    intro n hn
    rw [reparse, ← hNdef] at hn
    obtain ⟨g, hg, a, ha, hstmt⟩ := layoutGroups_stmts N 0 n hn
    have haS : a ∈ S₁ := by
      rw [← hflat]
      exact List.mem_flatten.mpr ⟨g, hg, ha⟩
    rw [hstmt]
    exact hSnimp a haS
  have hrelSec : List.Forall₂ relSec S₁ I₂ :=
    hrel.imp (fun _ _ hab => ⟨hab.2.1, hab.2.2.2.2⟩)
  have htexts := groupNodes_texts S₁ I₂ hrelSec
  have hrender₂ : generateSortedText
      (pipelineGroups so lo R (survivors (reparse G₁))) = R := by
    rw [hsurv₂]
    have hstep : pipelineGroups so lo R (reparse G₁) = groupNodes I₂ := by
      show groupNodes (sortNodes (buildItems so lo R (reparse G₁)))
        = groupNodes I₂
      rw [hbuild, hsort₂]
    rw [hstep, generateSortedText_eq (groupNodes I₂), htexts, hrender]
    apply congrArg
    rw [List.map_map, hNdef, List.map_map, hG₁def]
    apply List.map_congr_left
    intro G hG
    show normalizeNewlines (List.intercalate ['\n']
        (G.items.map (fun it => collapseChars it.text)))
      = List.intercalate ['\n'] (G.items.map (fun it => collapseChars it.text))
    exact normalize_collapsed_block G.items
      (hGne G (by rw [hG₁def]; exact hG))
      (fun a ha =>
        hNgood G.items
          (by rw [hNdef, hG₁def]; exact List.mem_map_of_mem _ hG) a ha)
  refine ⟨hrender₂, ?_⟩
  have hre : layoutGroups 0 N = reparse G₁ := by
    rw [reparse, hNdef]
  have hrepne : reparse G₁ ≠ [] := by
    rw [← hre]
    exact layoutGroups_ne_nil N 0 hNne hallne
  have hhead : (reparse G₁).head?.map Node.range0 = some 0 := by
    rw [← hre]
    exact layoutGroups_head_range0 N 0 hNne hallne
  have hlastq : (reparse G₁).getLast?.map Node.range1 = some R.length := by
    rw [← hre, layoutGroups_getLast_range1 N 0 hNne hallne, hrender]
    simp
  cases hrep : reparse G₁ with
  | nil => exact absurd hrep hrepne
  | cons first rest =>
    rw [hrep] at hhead hlastq hsurv₂ hrender₂
    rw [hsurv₂] at hrender₂
    have hfirst : first.range0 = 0 := by
      rw [List.head?_cons] at hhead
      simpa using hhead
    have hlast : ((first :: rest).getLastD first).range1 = R.length := by
      cases hgl : (first :: rest).getLast? with
      | none =>
        rw [hgl] at hlastq
        cases hlastq
      | some x =>
        rw [hgl] at hlastq
        rw [List.getLastD_eq_getLast? first (first :: rest), hgl]
        simpa using hlastq
    have hcond : sliceChars R first.range0
        ((first :: rest).getLastD first).range1
      = generateSortedText (pipelineGroups so lo R (first :: rest)) := by
      rw [hfirst, hlast, slice_full]
      exact hrender₂.symm
    unfold programExit
    rw [hsurv₂]
    show (if sliceChars R first.range0 ((first :: rest).getLastD first).range1
          = generateSortedText (pipelineGroups so lo R (first :: rest))
        then (none : Option Edit)
        else some ⟨first.range0, ((first :: rest).getLastD first).range1,
          generateSortedText (pipelineGroups so lo R (first :: rest))⟩)
      = none
    rw [if_pos hcond]

/-- The idempotence theorem applies to the concrete program
`c9Source` / `c9Body` under the default configuration. -/
theorem c9_witness :
    survivors c9Body ≠ []
    ∧ (∀ n ∈ survivors c9Body,
        goodText (sliceChars c9Source n.range0 n.range1) = true)
    ∧ (generateSortedText
          (pipelineGroups DEFAULT_SECTION_ORDER DEFAULT_LIFECYCLE_ORDER
            (generateSortedText (pipelineGroups DEFAULT_SECTION_ORDER
              DEFAULT_LIFECYCLE_ORDER c9Source (survivors c9Body)))
            (survivors (reparse (pipelineGroups DEFAULT_SECTION_ORDER
              DEFAULT_LIFECYCLE_ORDER c9Source (survivors c9Body)))))
        = generateSortedText (pipelineGroups DEFAULT_SECTION_ORDER
            DEFAULT_LIFECYCLE_ORDER c9Source (survivors c9Body))
      ∧ programExit DEFAULT_SECTION_ORDER DEFAULT_LIFECYCLE_ORDER
          (generateSortedText (pipelineGroups DEFAULT_SECTION_ORDER
            DEFAULT_LIFECYCLE_ORDER c9Source (survivors c9Body)))
          (reparse (pipelineGroups DEFAULT_SECTION_ORDER
            DEFAULT_LIFECYCLE_ORDER c9Source (survivors c9Body)))
        = none) :=
  ⟨by decide, by decide,
    c9_idempotent DEFAULT_SECTION_ORDER DEFAULT_LIFECYCLE_ORDER c9Source c9Body
      (by decide) (by decide)⟩

end VueSetup
